import Mathlib

/-
Verification of the cwisstable SwissTable core, in the portable SWAR build
(8-byte groups, no SSE2) and the release configuration: NDEBUG makes
CWISS_DCHECK a no-op and disables the randomized backward insertion inside
CWISS_find_first_non_full; CWISS_CHECK (always active) aborts the process,
which the model renders as an Option-valued operation returning none.

Control bytes are modelled as unsigned bytes 0..255, the two-complement
image of the int8_t values of the source: kEmpty = 0x80, kDeleted = 0xFE,
kSentinel = 0xFF, and Full bytes are 0x00..0x7F.  An 8-byte group is the
little-endian packing of 8 control bytes into one 64-bit word, exactly what
the memcpy in CWISS_Group_new produces on a little-endian machine.
uint64_t arithmetic is Nat arithmetic with an explicit mod 2 ^ 64 wherever
the source computation can wrap.  The pointer-derived hash seed of
CWISS_HashSeed has no counterpart in a memory-free model and is taken to
be 0, so CWISS_H1 hash = hash >>> 7; no claim below depends on the seed.
-/

/-  ===================  control bytes (ctrl.h)  =========================  -/

def CWISS_kEmpty : Nat := 0x80

def CWISS_kDeleted : Nat := 0xFE

def CWISS_kSentinel : Nat := 0xFF

/-  The signed int8_t reading of a control byte, used by the comparisons in
    the source (ctrl.h uses int8_t throughout).  -/
def ctrlSigned (b : Nat) : Int :=
  if b < 128 then (b : Int) else (b : Int) - 256

def CWISS_IsEmpty (b : Nat) : Bool := ctrlSigned b = ctrlSigned CWISS_kEmpty

def CWISS_IsFull (b : Nat) : Bool := 0 ≤ ctrlSigned b

def CWISS_IsDeleted (b : Nat) : Bool := ctrlSigned b = ctrlSigned CWISS_kDeleted

def CWISS_IsEmptyOrDeleted (b : Nat) : Bool :=
  ctrlSigned b < ctrlSigned CWISS_kSentinel

def CWISS_H1 (hash : Nat) : Nat := hash >>> 7

def CWISS_H2 (hash : Nat) : Nat := hash &&& 0x7F

/-  ===================  bit utilities (bits.h)  =========================  -/

/-  CWISS_TrailingZeros on uint64_t is __builtin_ctzll; the builtin is only
    defined for nonzero input, and the total model below returns 64 at 0,
    the value every call site that can pass 0 relies on being >= 64.  -/
def ctzGo : Nat → Nat → Nat
  | 0, _ => 0
  | fuel + 1, n => if n % 2 = 1 then 0 else ctzGo fuel (n / 2) + 1

def ctz64 (n : Nat) : Nat := ctzGo 64 n

/-  Number of binary digits; bwGo 64 n is CWISS_BitWidth for uint64_t.  -/
def bwGo : Nat → Nat → Nat
  | 0, _ => 0
  | fuel + 1, n => if n = 0 then 0 else bwGo fuel (n / 2) + 1

/-  CWISS_LeadingZeros on uint64_t is __builtin_clzll, total at 0 as 64.  -/
def clz64 (n : Nat) : Nat := 64 - bwGo 64 n

/-  A CWISS_BitMask of an 8-byte group has width 8 and shift 3: the lane
    indicator is the MSB of each byte, and lane indices are bit indices
    shifted down by 3.  The mask word itself is the Nat.  -/
def CWISS_BitMask_LowestBitSet (m : Nat) : Nat := ctz64 m >>> 3

def CWISS_BitMask_HighestBitSet (m : Nat) : Nat := (bwGo 64 m - 1) >>> 3

def CWISS_BitMask_TrailingZeros (m : Nat) : Nat := ctz64 m >>> 3

/-  extra_bits = 64 - (width << shift) = 0 for the 8-byte group build.  -/
def CWISS_BitMask_LeadingZeros (m : Nat) : Nat := clz64 m >>> 3

/-  The lane indices produced by repeated CWISS_BitMask_next: pop the lowest
    set bit until the mask is zero.  Fuel-driven; 64 iterations always
    suffice because each step clears one bit of a 64-bit word.  -/
def CWISS_BitMask_lanes : Nat → Nat → List Nat
  | 0, _ => []
  | fuel + 1, m =>
    if m = 0 then []
    else CWISS_BitMask_LowestBitSet m :: CWISS_BitMask_lanes fuel (m &&& (m - 1))

/-  ===================  SWAR groups (ctrl.h, no-SSE2 half)  =============  -/

def CWISS_lsbs : Nat := 0x0101010101010101

def CWISS_msbs : Nat := 0x8080808080808080

/-  Little-endian byte j of a 64-bit word.  -/
def byteAt (n j : Nat) : Nat := n / 2 ^ (8 * j) % 256

/-  0x0101...01 with j bytes: the value of the low j bytes of lsbs.  -/
def repunit : Nat → Nat
  | 0 => 0
  | j + 1 => repunit j + 2 ^ (8 * j)

/-  CWISS_Group_Match: x = self ^ (lsbs * hash); (x - lsbs) & ~x & msbs,
    all on uint64_t: subtraction is addition of the two-complement.  -/
def CWISS_Group_Match (g hash : Nat) : Nat :=
  (((g ^^^ (CWISS_lsbs * hash % 2 ^ 64)) + (2 ^ 64 - CWISS_lsbs)) % 2 ^ 64) &&&
      ((g ^^^ (CWISS_lsbs * hash % 2 ^ 64)) ^^^ (2 ^ 64 - 1)) &&&
    CWISS_msbs

/-  CWISS_Group_MatchEmpty: (self & (~self << 6)) & msbs.  -/
def CWISS_Group_MatchEmpty (g : Nat) : Nat :=
  (g &&& (((g ^^^ (2 ^ 64 - 1)) <<< 6) % 2 ^ 64)) &&& CWISS_msbs

/-  CWISS_Group_MatchEmptyOrDeleted: (self & (~self << 7)) & msbs.  -/
def CWISS_Group_MatchEmptyOrDeleted (g : Nat) : Nat :=
  (g &&& (((g ^^^ (2 ^ 64 - 1)) <<< 7) % 2 ^ 64)) &&& CWISS_msbs

/-  CWISS_Group_CountLeadingEmptyOrDeleted.  -/
def CWISS_Group_CountLeadingEmptyOrDeleted (g : Nat) : Nat :=
  (ctz64 (((((g ^^^ (2 ^ 64 - 1)) &&& (g >>> 7)) ||| 0x00FEFEFEFEFEFEFE) + 1)
        % 2 ^ 64) + 7) >>> 3

/-  The 64-bit word computed by the SWAR half of
    CWISS_Group_ConvertSpecialToEmptyAndFullToDeleted:
    x = self & msbs; res = (~x + (x >> 7)) & ~lsbs.  The source then runs
    memcpy(dst, &res, sizeof(*dst)), which copies sizeof(CWISS_ctrl_t) = 1
    byte, so only the first byte of res ever reaches dst; see
    CWISS_Group_ConvertSpecialToEmptyAndFullToDeleted below.  -/
def CWISS_ConvertSpecial_word (g : Nat) : Nat :=
  ((((g &&& CWISS_msbs) ^^^ (2 ^ 64 - 1)) + ((g &&& CWISS_msbs) >>> 7)) % 2 ^ 64)
    &&& (CWISS_lsbs ^^^ (2 ^ 64 - 1))

/-  ===================  capacity math (capacity.h)  =====================  -/

def CWISS_NumClonedBytes : Nat := 7

def CWISS_IsValidCapacity (n : Nat) : Bool :=
  ((n + 1) &&& n == 0) && decide (0 < n)

/-  The source subtracts in size_t; sub64 is that two-complement wrap.  -/
def sub64 (a b : Nat) : Nat := (a + 2 ^ 64 - b) % 2 ^ 64

/-  memset of capacity + 1 + NumClonedBytes ctrl bytes to kEmpty, then the
    Sentinel at index capacity.  -/
def CWISS_ResetCtrl (capacity : Nat) : List Nat :=
  (List.replicate (capacity + 1 + 7) CWISS_kEmpty).set capacity CWISS_kSentinel

/-  ctrl[i] = h, then the branchless mirror write
    ctrl[((i - NumClonedBytes) & capacity) + (NumClonedBytes & capacity)],
    with the subtraction in size_t.  -/
def CWISS_SetCtrl (i h capacity : Nat) (ctrl : List Nat) : List Nat :=
  (ctrl.set i h).set
    ((((i + 2 ^ 64 - 7) % 2 ^ 64) &&& capacity) + (7 &&& capacity)) h

/-  n ? SIZE_MAX >> LeadingZeros(n) : 1.  -/
def CWISS_NormalizeCapacity (n : Nat) : Nat :=
  if n = 0 then 1 else (2 ^ 64 - 1) >>> clz64 n

/-  Group width is 8 in this build, so the source condition
    CWISS_Group_kWidth == 8 && capacity == 7 reduces to capacity == 7.  -/
def CWISS_CapacityToGrowth (capacity : Nat) : Nat :=
  if capacity = 7 then 6 else capacity - capacity / 8

/-  growth + (int64_t cast: (growth - 1) / 7 truncating toward zero), which
    at growth = 0 gives 0 + 0; Nat subtraction produces the same value.  -/
def CWISS_GrowthToLowerboundCapacity (growth : Nat) : Nat :=
  if growth = 7 then 8 else growth + (growth - 1) / 7

/-  ===================  group loads  ====================================  -/

/-  CWISS_Group_new: memcpy of 8 consecutive ctrl bytes into a uint64_t,
    little-endian.  Under the well-formedness used below the 8 bytes are
    always inside the ctrl array, so the getD default is never read.  -/
def CWISS_Group_new (ctrl : List Nat) (p : Nat) : Nat :=
  ctrl.getD p 0 + 2 ^ 8 * ctrl.getD (p + 1) 0 + 2 ^ 16 * ctrl.getD (p + 2) 0 +
    2 ^ 24 * ctrl.getD (p + 3) 0 + 2 ^ 32 * ctrl.getD (p + 4) 0 +
    2 ^ 40 * ctrl.getD (p + 5) 0 + 2 ^ 48 * ctrl.getD (p + 6) 0 +
    2 ^ 56 * ctrl.getD (p + 7) 0

/-  memcpy(ctrl + capacity + 1, ctrl, NumClonedBytes).  -/
def copyClonedTail (ctrl : List Nat) (capacity : Nat) : List Nat :=
  (List.range 7).foldl (fun c u => c.set (capacity + 1 + u) (c.getD u 0)) ctrl

/-  The group-wise loop of CWISS_ConvertDeletedToEmptyAndFullToDeleted:
    for pos = ctrl; pos < ctrl + capacity; pos += 8, convert the group at
    pos; each CWISS_Group_ConvertSpecialToEmptyAndFullToDeleted call writes
    back only byte 0 of its converted word (the memcpy of sizeof(*dst) = 1
    byte).  Then re-copy the cloned tail and restore the Sentinel.  -/
def CWISS_ConvertDeletedToEmptyAndFullToDeleted
    (ctrl : List Nat) (capacity : Nat) : List Nat :=
  let looped := (List.range ((capacity + 7) / 8)).foldl
    (fun c m =>
      c.set (8 * m) (byteAt (CWISS_ConvertSpecial_word (CWISS_Group_new c (8 * m))) 0))
    ctrl
  (copyClonedTail looped capacity).set capacity CWISS_kSentinel

/-  ===================  probing (probe.h)  ==============================  -/

def CWISS_is_small (capacity : Nat) : Bool := capacity < 7

structure CWISS_probe_seq where
  mask : Nat
  offset : Nat
  index : Nat
deriving DecidableEq

def CWISS_probe_seq_new (hash mask : Nat) : CWISS_probe_seq :=
  ⟨mask, hash &&& mask, 0⟩

def CWISS_probe_seq_offset (s : CWISS_probe_seq) (i : Nat) : Nat :=
  (s.offset + i) &&& s.mask

/-  index += 8; offset += index; offset &= mask.  -/
def CWISS_probe_seq_next (s : CWISS_probe_seq) : CWISS_probe_seq :=
  ⟨s.mask, (s.offset + (s.index + 8)) &&& s.mask, s.index + 8⟩

def CWISS_probe (hash capacity : Nat) : CWISS_probe_seq :=
  CWISS_probe_seq_new (CWISS_H1 hash) capacity

/-  t applications of CWISS_probe_seq_next.  -/
def probeIter (s : CWISS_probe_seq) : Nat → CWISS_probe_seq
  | 0 => s
  | t + 1 => CWISS_probe_seq_next (probeIter s t)

/-  Triangular numbers: tri t = t * (t + 1) / 2.  -/
def tri : Nat → Nat
  | 0 => 0
  | t + 1 => tri t + (t + 1)

/-  CWISS_find_first_non_full, NDEBUG build: always the lowest set lane.
    The while loop is fuel-driven; the loop body runs at most
    (capacity + 1) / 8 times on any table that has an empty or deleted
    byte (the probe windows partition the array), so capacity + 1 units of
    fuel always suffice; none models the forever-spinning full-table case
    that the DCHECK would catch.  -/
def findFirstNonFullGo (ctrl : List Nat) :
    Nat → CWISS_probe_seq → Option (Nat × Nat)
  | 0, _ => none
  | fuel + 1, seq =>
    let m := CWISS_Group_MatchEmptyOrDeleted (CWISS_Group_new ctrl seq.offset)
    if m ≠ 0 then
      some (CWISS_probe_seq_offset seq (CWISS_BitMask_TrailingZeros m), seq.index)
    else findFirstNonFullGo ctrl fuel (CWISS_probe_seq_next seq)

def CWISS_find_first_non_full (ctrl : List Nat) (hash capacity : Nat) :
    Option (Nat × Nat) :=
  findFirstNonFullGo ctrl (capacity + 1) (CWISS_probe hash capacity)

/-  ===================  the raw table (raw_hash_set.h)  =================  -/

/-  The policy is fixed to a flat policy storing Nat keys directly in the
    slots: obj and slot size coincide, slot init is a no-op, slot get is
    the identity, transfer and copy are plain stores, del only destroys
    the value and does not touch table state.  The key hash function hh
    is a parameter of every operation that hashes; key equality is Nat
    equality, which satisfies the eq-implies-equal-hash contract for any
    hh.  Slot cells that are not Full hold junk; reads happen only at
    Full slots.  -/
structure CWISS_RawHashSet where
  ctrl : List Nat
  slots : List Nat
  size : Nat
  capacity : Nat
  growth_left : Nat
deriving DecidableEq, Repr

def CWISS_EmptyGroup : List Nat :=
  CWISS_kSentinel :: List.replicate 15 CWISS_kEmpty

def CWISS_RawHashSet_reset_growth_left (t : CWISS_RawHashSet) : CWISS_RawHashSet :=
  { t with growth_left := sub64 (CWISS_CapacityToGrowth t.capacity) t.size }

/-  CWISS_RawHashSet_initialize_slots: allocate, ResetCtrl, reset growth.
    The fresh slot array is uninitialized memory, rendered as zero junk.  -/
def CWISS_RawHashSet_initialize_slots (t : CWISS_RawHashSet) : CWISS_RawHashSet :=
  CWISS_RawHashSet_reset_growth_left
    { t with ctrl := CWISS_ResetCtrl t.capacity,
             slots := List.replicate t.capacity 0 }

/-  The transfer loop body of CWISS_RawHashSet_resize for one old index.  -/
def resizeStep (hh : Nat → Nat) (old_ctrl old_slots : List Nat)
    (acc : Option CWISS_RawHashSet) (i : Nat) : Option CWISS_RawHashSet :=
  match acc with
  | none => none
  | some s =>
    if CWISS_IsFull (old_ctrl.getD i 0) then
      match CWISS_find_first_non_full s.ctrl (hh (old_slots.getD i 0)) s.capacity with
      | none => none
      | some target =>
        some { s with
          ctrl := CWISS_SetCtrl target.1 (CWISS_H2 (hh (old_slots.getD i 0)))
                    s.capacity s.ctrl,
          slots := s.slots.set target.1 (old_slots.getD i 0) }
    else some s

def CWISS_RawHashSet_resize (hh : Nat → Nat) (t : CWISS_RawHashSet)
    (new_capacity : Nat) : Option CWISS_RawHashSet :=
  (List.range t.capacity).foldl
    (resizeStep hh t.ctrl t.slots)
    (some (CWISS_RawHashSet_initialize_slots { t with capacity := new_capacity }))

/-  The i-loop of CWISS_RawHashSet_drop_deletes_without_resize, with the
    --i retry rendered as recursing on the same i.  The scratch slot only
    carries one value inside a single iteration, so the three transfers of
    the swap case are the two visible stores below.  Fuel: every step
    either advances i or converts the Deleted byte at new_i to Full, so
    2 * capacity + 2 steps suffice; none models a spinning loop.  -/
def dropDeletesGo (hh : Nat → Nat) (capacity : Nat) :
    Nat → Nat → List Nat → List Nat → Option (List Nat × List Nat)
  | 0, _, _, _ => none
  | fuel + 1, i, ctrl, slots =>
    if i ≥ capacity then some (ctrl, slots)
    else if ¬CWISS_IsDeleted (ctrl.getD i 0) then
      dropDeletesGo hh capacity fuel (i + 1) ctrl slots
    else
      match CWISS_find_first_non_full ctrl (hh (slots.getD i 0)) capacity with
      | none => none
      | some target =>
        let hash := hh (slots.getD i 0)
        let new_i := target.1
        let probe_offset := (CWISS_probe hash capacity).offset
        if ((new_i + 2 ^ 64 - probe_offset) % 2 ^ 64 &&& capacity) / 8 =
            ((i + 2 ^ 64 - probe_offset) % 2 ^ 64 &&& capacity) / 8 then
          dropDeletesGo hh capacity fuel (i + 1)
            (CWISS_SetCtrl i (CWISS_H2 hash) capacity ctrl) slots
        else if CWISS_IsEmpty (ctrl.getD new_i 0) then
          dropDeletesGo hh capacity fuel (i + 1)
            (CWISS_SetCtrl i CWISS_kEmpty capacity
              (CWISS_SetCtrl new_i (CWISS_H2 hash) capacity ctrl))
            (slots.set new_i (slots.getD i 0))
        else
          dropDeletesGo hh capacity fuel i
            (CWISS_SetCtrl new_i (CWISS_H2 hash) capacity ctrl)
            ((slots.set i (slots.getD new_i 0)).set new_i (slots.getD i 0))

def CWISS_RawHashSet_drop_deletes_without_resize (hh : Nat → Nat)
    (t : CWISS_RawHashSet) : Option CWISS_RawHashSet :=
  match dropDeletesGo hh t.capacity (2 * t.capacity + 2) 0
      (CWISS_ConvertDeletedToEmptyAndFullToDeleted t.ctrl t.capacity) t.slots with
  | none => none
  | some (ctrl, slots) =>
    some (CWISS_RawHashSet_reset_growth_left { t with ctrl := ctrl, slots := slots })

def CWISS_RawHashSet_rehash_and_grow_if_necessary (hh : Nat → Nat)
    (t : CWISS_RawHashSet) : Option CWISS_RawHashSet :=
  if t.capacity = 0 then CWISS_RawHashSet_resize hh t 1
  else if 8 < t.capacity ∧ t.size * 32 ≤ t.capacity * 25 then
    CWISS_RawHashSet_drop_deletes_without_resize hh t
  else CWISS_RawHashSet_resize hh t (t.capacity * 2 + 1)

/-  The lane loop shared verbatim by CWISS_RawHashSet_has_element,
    CWISS_RawHashSet_find_or_prepare_insert and CWISS_RawHashSet_find_hinted:
    for each lane of the match mask, read the slot at
    CWISS_probe_seq_offset(seq, lane) and test key equality.  -/
def scanLanes (slots : List Nat) (key : Nat) (seq : CWISS_probe_seq) :
    List Nat → Option Nat
  | [] => none
  | l :: rest =>
    if slots.getD (CWISS_probe_seq_offset seq l) 0 = key then
      some (CWISS_probe_seq_offset seq l)
    else scanLanes slots key seq rest

/-  The probe loop shared by the three lookup routines: walk the probe
    sequence, scan Match(H2) lanes against the key, stop at the first group
    with an empty lane.  some (some idx) is a hit at slot idx, some none is
    a miss (the group had an empty byte), none is exhausted fuel (a table
    with no empty byte anywhere, which the DCHECK would catch).  -/
def probeScanGo (slots ctrl : List Nat) (h2 key : Nat) :
    Nat → CWISS_probe_seq → Option (Option Nat)
  | 0, _ => none
  | fuel + 1, seq =>
    let g := CWISS_Group_new ctrl seq.offset
    match scanLanes slots key seq (CWISS_BitMask_lanes 64 (CWISS_Group_Match g h2)) with
    | some idx => some (some idx)
    | none =>
      if CWISS_Group_MatchEmpty g ≠ 0 then some none
      else probeScanGo slots ctrl h2 key fuel (CWISS_probe_seq_next seq)

def probeScan (t : CWISS_RawHashSet) (key hash : Nat) : Option (Option Nat) :=
  probeScanGo t.slots t.ctrl (CWISS_H2 hash) key (t.capacity + 1)
    (CWISS_probe hash t.capacity)

/-  The tail of CWISS_RawHashSet_prepare_insert after the target is known:
    ++size; growth_left -= IsEmpty(ctrl[target]); SetCtrl(target, H2).  -/
def finishPrepare (t : CWISS_RawHashSet) (offset hash : Nat) :
    CWISS_RawHashSet × Nat :=
  ({ t with
      size := t.size + 1,
      growth_left :=
        sub64 t.growth_left (if CWISS_IsEmpty (t.ctrl.getD offset 0) then 1 else 0),
      ctrl := CWISS_SetCtrl offset (CWISS_H2 hash) t.capacity t.ctrl },
    offset)

def CWISS_RawHashSet_prepare_insert (hh : Nat → Nat) (t : CWISS_RawHashSet)
    (hash : Nat) : Option (CWISS_RawHashSet × Nat) :=
  match CWISS_find_first_non_full t.ctrl hash t.capacity with
  | none => none
  | some target =>
    if t.growth_left = 0 ∧ ¬CWISS_IsDeleted (t.ctrl.getD target.1 0) then
      match CWISS_RawHashSet_rehash_and_grow_if_necessary hh t with
      | none => none
      | some t' =>
        match CWISS_find_first_non_full t'.ctrl hash t'.capacity with
        | none => none
        | some target' => some (finishPrepare t' target'.1 hash)
    else some (finishPrepare t target.1 hash)

/-  (state, index, inserted): inserted = false returns the found slot.  -/
def CWISS_RawHashSet_find_or_prepare_insert (hh : Nat → Nat)
    (t : CWISS_RawHashSet) (key : Nat) :
    Option (CWISS_RawHashSet × Nat × Bool) :=
  match probeScan t key (hh key) with
  | none => none
  | some (some idx) => some (t, idx, false)
  | some none =>
    match CWISS_RawHashSet_prepare_insert hh t (hh key) with
    | none => none
    | some (t', offset) => some (t', offset, true)

/-  slot init is a no-op and obj copy is a store for the flat Nat policy.  -/
def CWISS_RawHashSet_insert_at (t : CWISS_RawHashSet) (i v : Nat) :
    CWISS_RawHashSet :=
  { t with slots := t.slots.set i v }

/-  ==================  iteration (raw_hash_set.h)  ======================  -/

/-  The while loop of CWISS_RawIter_skip_empty_or_deleted: while the byte
    at the cursor is empty or deleted, advance by the group count of
    leading empty-or-deleted lanes.  Returns the physical index at which
    the loop stops; none is exhausted fuel (each iteration advances by at
    least 1 on any byte list reachable here).  -/
def skipGo (ctrl : List Nat) : Nat → Nat → Option Nat
  | 0, _ => none
  | fuel + 1, i =>
    if CWISS_IsEmptyOrDeleted (ctrl.getD i 0) then
      skipGo ctrl fuel
        (i + CWISS_Group_CountLeadingEmptyOrDeleted (CWISS_Group_new ctrl i))
    else some i

/-  skip, then the sentinel test that turns the iterator into the null
    iterator: some none is the null (end) iterator.  -/
def CWISS_RawIter_skip_empty_or_deleted (ctrl : List Nat) (fuel i : Nat) :
    Option (Option Nat) :=
  match skipGo ctrl fuel i with
  | none => none
  | some j => if ctrl.getD j 0 = CWISS_kSentinel then some none else some (some j)

/-  CWISS_RawHashSet_iter_at: build the iterator at index, skip, then
    CWISS_AssertIsFull, which aborts on the null iterator (none).  After
    the skip a non-null cursor byte is neither empty-or-deleted nor the
    sentinel, so it is Full and the assertion passes.  -/
def CWISS_RawHashSet_iter_at (t : CWISS_RawHashSet) (index : Nat) : Option Nat :=
  match CWISS_RawIter_skip_empty_or_deleted t.ctrl (t.capacity + 9) index with
  | none => none
  | some none => none
  | some (some j) => some j

def CWISS_RawHashSet_iter (t : CWISS_RawHashSet) : Option Nat :=
  CWISS_RawHashSet_iter_at t 0

/-  CWISS_RawIter_next: assert the cursor is on a Full byte, advance one
    lane, skip; returns the new cursor, some none at the end iterator.  -/
def CWISS_RawIter_next (t : CWISS_RawHashSet) (j : Nat) : Option (Option Nat) :=
  if ¬CWISS_IsFull (t.ctrl.getD j 0) then none
  else CWISS_RawIter_skip_empty_or_deleted t.ctrl (t.capacity + 9) (j + 1)

/-  ==================  construction, dup, clear  ========================  -/

def CWISS_RawHashSet_new (bucket_count : Nat) : CWISS_RawHashSet :=
  if bucket_count = 0 then ⟨CWISS_EmptyGroup, [], 0, 0, 0⟩
  else
    CWISS_RawHashSet_initialize_slots
      ⟨CWISS_EmptyGroup, [], 0, CWISS_NormalizeCapacity bucket_count, 0⟩

def CWISS_RawHashSet_reserve (hh : Nat → Nat) (t : CWISS_RawHashSet) (n : Nat) :
    Option CWISS_RawHashSet :=
  if t.size + t.growth_left < n then
    CWISS_RawHashSet_resize hh t
      (CWISS_NormalizeCapacity (CWISS_GrowthToLowerboundCapacity n))
  else some t

/-  The while body of CWISS_RawHashSet_dup: v = RawIter_next(&iter); if v is
    null stop, else find_first_non_full on the hash of v, SetCtrl, insert_at.
    The iterator walks the table the source iterates, namely the new table
    self, not that.  -/
def dupGo (hh : Nat → Nat) :
    Nat → CWISS_RawHashSet → Nat → Option CWISS_RawHashSet
  | 0, _, _ => none
  | fuel + 1, self, j =>
    match CWISS_RawIter_next self j with
    | none => none
    | some none => some self
    | some (some j') =>
      let v := self.slots.getD j' 0
      match CWISS_find_first_non_full self.ctrl (hh v) self.capacity with
      | none => none
      | some target =>
        dupGo hh fuel
          (CWISS_RawHashSet_insert_at
            { self with
                ctrl := CWISS_SetCtrl target.1 (CWISS_H2 (hh v)) self.capacity
                  self.ctrl }
            target.1 v)
          j'

/-  CWISS_RawHashSet_dup: new(0); reserve(that.size); iterate, copying each
    visited element; finally size = that.size and growth_left -= that.size
    in bulk.  The iteration is over the new table self (the source passes
    &self to CWISS_RawHashSet_iter); on every input the iterator lands on
    the sentinel of an all-empty table and CWISS_AssertIsFull aborts, so
    the model returns none.  -/
def CWISS_RawHashSet_dup (hh : Nat → Nat) (that : CWISS_RawHashSet) :
    Option CWISS_RawHashSet :=
  match CWISS_RawHashSet_reserve hh (CWISS_RawHashSet_new 0) that.size with
  | none => none
  | some self =>
    match CWISS_RawHashSet_iter self with
    | none => none
    | some j =>
      match dupGo hh (self.size + 1) self j with
      | none => none
      | some self' =>
        some { self' with
                 size := that.size,
                 growth_left := sub64 self'.growth_left that.size }

/-  CWISS_RawHashSet_destroy_slots: free the block and point back at the
    shared empty group.  slot del destroys values only, no state effect.  -/
def CWISS_RawHashSet_destroy_slots (t : CWISS_RawHashSet) : CWISS_RawHashSet :=
  if t.capacity = 0 then t else ⟨CWISS_EmptyGroup, [], 0, 0, 0⟩

def CWISS_RawHashSet_clear (t : CWISS_RawHashSet) : CWISS_RawHashSet :=
  if 127 < t.capacity then CWISS_RawHashSet_destroy_slots t
  else if t.capacity ≠ 0 then
    CWISS_RawHashSet_reset_growth_left
      { t with size := 0, ctrl := CWISS_ResetCtrl t.capacity }
  else t

/-  ==================  insert, find, erase  =============================  -/

/-  (state, iterator index, inserted); the returned iterator comes from
    CWISS_RawHashSet_citer_at at the found or inserted index.  -/
def CWISS_RawHashSet_insert (hh : Nat → Nat) (t : CWISS_RawHashSet) (val : Nat) :
    Option (CWISS_RawHashSet × Nat × Bool) :=
  match CWISS_RawHashSet_find_or_prepare_insert hh t val with
  | none => none
  | some (t1, idx, inserted) =>
    let t2 := if inserted then CWISS_RawHashSet_insert_at t1 idx val else t1
    match CWISS_RawHashSet_iter_at t2 idx with
    | none => none
    | some j => some (t2, j, inserted)

def CWISS_RawHashSet_find_hinted (t : CWISS_RawHashSet) (key hash : Nat) :
    Option (Option Nat) :=
  match probeScan t key hash with
  | none => none
  | some none => some none
  | some (some idx) =>
    match CWISS_RawHashSet_iter_at t idx with
    | none => none
    | some j => some (some j)

def CWISS_RawHashSet_find (hh : Nat → Nat) (t : CWISS_RawHashSet) (key : Nat) :
    Option (Option Nat) :=
  CWISS_RawHashSet_find_hinted t key (hh key)

def CWISS_RawHashSet_contains (hh : Nat → Nat) (t : CWISS_RawHashSet)
    (key : Nat) : Option Bool :=
  match CWISS_RawHashSet_find hh t key with
  | none => none
  | some r => some r.isSome

/-  The was_never_full local of CWISS_RawHashSet_erase_meta_only:
    empty_before.mask && empty_after.mask &&
    (TrailingZeros(empty_after) + LeadingZeros(empty_before)) < kWidth,
    with index_before = (j - kWidth) & capacity in size_t arithmetic.  -/
def eraseWasNeverFull (t : CWISS_RawHashSet) (j : Nat) : Prop :=
  CWISS_Group_MatchEmpty
      (CWISS_Group_new t.ctrl (((j + 2 ^ 64 - 8) % 2 ^ 64) &&& t.capacity)) ≠ 0 ∧
  CWISS_Group_MatchEmpty (CWISS_Group_new t.ctrl j) ≠ 0 ∧
  CWISS_BitMask_TrailingZeros
      (CWISS_Group_MatchEmpty (CWISS_Group_new t.ctrl j)) +
    CWISS_BitMask_LeadingZeros (CWISS_Group_MatchEmpty
      (CWISS_Group_new t.ctrl (((j + 2 ^ 64 - 8) % 2 ^ 64) &&& t.capacity))) < 8

instance (t : CWISS_RawHashSet) (j : Nat) : Decidable (eraseWasNeverFull t j) := by
  unfold eraseWasNeverFull
  infer_instance

/-  CWISS_RawHashSet_erase_meta_only at iterator index j.  -/
def CWISS_RawHashSet_erase_meta_only (t : CWISS_RawHashSet) (j : Nat) :
    CWISS_RawHashSet :=
  { t with
      size := sub64 t.size 1,
      ctrl := CWISS_SetCtrl j
        (if eraseWasNeverFull t j then CWISS_kEmpty else CWISS_kDeleted)
        t.capacity t.ctrl,
      growth_left := t.growth_left + (if eraseWasNeverFull t j then 1 else 0) }

/-  CWISS_RawHashSet_erase_at: CWISS_AssertIsFull, slot del (no state
    effect for the flat Nat policy), erase_meta_only.  -/
def CWISS_RawHashSet_erase_at (t : CWISS_RawHashSet) (j : Nat) :
    Option CWISS_RawHashSet :=
  if ¬CWISS_IsFull (t.ctrl.getD j 0) then none
  else some (CWISS_RawHashSet_erase_meta_only t j)

/-  CWISS_RawHashSet_erase: find, then erase_at when found; 1 or 0.  -/
def CWISS_RawHashSet_erase (hh : Nat → Nat) (t : CWISS_RawHashSet) (key : Nat) :
    Option (CWISS_RawHashSet × Nat) :=
  match CWISS_RawHashSet_find hh t key with
  | none => none
  | some none => some (t, 0)
  | some (some j) =>
    match CWISS_RawHashSet_erase_at t j with
    | none => none
    | some t' => some (t', 1)

/-  The four legal states of a control byte in this model.  -/
def ctrlByteOk (b : Nat) : Prop :=
  b < 128 ∨ b = CWISS_kEmpty ∨ b = CWISS_kDeleted ∨ b = CWISS_kSentinel

instance (b : Nat) : Decidable (ctrlByteOk b) := by
  unfold ctrlByteOk
  infer_instance

/-  A well-formed capacity-15 table with growth_left 0, eleven Full slots
    (slot p holds value 128 p + p + 1, whose H2 is p + 1), one Empty slot
    at index 3 and three tombstones at 9, 10, 11 whose slot memory still
    holds the erased values (index 9 held the key 0).  Inserting 0 sends
    prepare_insert through rehash_and_grow_if_necessary into
    drop_deletes_without_resize.  -/
def dropDeletesExampleTable : CWISS_RawHashSet :=
  ⟨[1, 2, 3, 128, 5, 6, 7, 8, 9, 254, 254, 254, 13, 14, 15, 255,
      1, 2, 3, 128, 5, 6, 7],
    [1, 130, 259, 0, 517, 646, 775, 904, 1033, 0, 1291, 1420, 1549, 1678,
      1807],
    11, 15, 0⟩

/-  The control-byte invariant exactly as the claim states it, cloned-tail
    clause included: ctrl[j] = ctrl[j - capacity - 1] for every
    j in [capacity + 1, capacity + 8).  -/
def ctrlInvariantClaimed (capacity : Nat) (ctrl : List Nat) : Prop :=
  (∀ i, i < capacity →
    ctrlByteOk (ctrl.getD i 0) ∧ ctrl.getD i 0 ≠ CWISS_kSentinel) ∧
  ctrl.getD capacity 0 = CWISS_kSentinel ∧
  (∀ j, capacity + 1 ≤ j → j < capacity + 8 →
    ctrl.getD j 0 = ctrl.getD (j - capacity - 1) 0)

/-  The control-byte invariant the code actually maintains: the cloned tail
    mirrors the first min(capacity, 7) real bytes, and the remaining tail
    bytes of a small table are dummy kEmpty values (probe.h documents
    these as bytes that do not represent a real slot).  -/
def ctrlInvariant (capacity : Nat) (ctrl : List Nat) : Prop :=
  (∀ i, i < capacity →
    ctrlByteOk (ctrl.getD i 0) ∧ ctrl.getD i 0 ≠ CWISS_kSentinel) ∧
  ctrl.getD capacity 0 = CWISS_kSentinel ∧
  (∀ u, u < 7 → ctrl.getD (capacity + 1 + u) 0 =
    if u < capacity then ctrl.getD u 0 else CWISS_kEmpty)

instance (capacity : Nat) (ctrl : List Nat) :
    Decidable (ctrlInvariantClaimed capacity ctrl) := by
  unfold ctrlInvariantClaimed
  infer_instance

instance (capacity : Nat) (ctrl : List Nat) :
    Decidable (ctrlInvariant capacity ctrl) := by
  unfold ctrlInvariant
  infer_instance

/-  The probe sequence after S next() steps, starting from offset p0 on a
    table of the given capacity (the state CWISS_probe builds when
    H1(hash) & capacity = p0).  -/
def probeAt (capacity p0 S : Nat) : CWISS_probe_seq :=
  probeIter ⟨capacity, p0, 0⟩ S

/-  Key membership: some Full slot holds the key.  -/
def hasKey (hh : Nat → Nat) (t : CWISS_RawHashSet) (key : Nat) : Prop :=
  ∃ j, j < t.capacity ∧ CWISS_IsFull (t.ctrl.getD j 0) = true ∧
    t.slots.getD j 0 = key

instance (hh : Nat → Nat) (t : CWISS_RawHashSet) (key : Nat) :
    Decidable (hasKey hh t key) := by
  unfold hasKey
  infer_instance

/-  The well-formedness invariant the lookup and erase proofs run on:
    a valid power-of-two-minus-one capacity; array lengths as allocated;
    the control-byte invariant; every Full control byte stores the H2 of
    its slot's hash; Full slots hold pairwise distinct keys; every probe
    start reaches a window with an Empty byte within capacity + 1 steps;
    and every Full slot is visible to its own probe sequence: some window
    T covers it with a physical byte equal to its control byte, and no
    earlier window of that sequence holds an Empty byte.  All clauses are
    bounded, hence decidable, so concrete tables check by decide.  -/
def Wf (hh : Nat → Nat) (t : CWISS_RawHashSet) : Prop :=
  (∃ kk, kk < 65 ∧ 1 ≤ kk ∧ t.capacity = 2 ^ kk - 1) ∧
  t.ctrl.length = t.capacity + 8 ∧
  t.slots.length = t.capacity ∧
  ctrlInvariant t.capacity t.ctrl ∧
  (∀ j, j < t.capacity → CWISS_IsFull (t.ctrl.getD j 0) = true →
    t.ctrl.getD j 0 = CWISS_H2 (hh (t.slots.getD j 0))) ∧
  (∀ i, i < t.capacity → ∀ j, j < t.capacity →
    CWISS_IsFull (t.ctrl.getD i 0) = true →
    CWISS_IsFull (t.ctrl.getD j 0) = true →
    t.slots.getD i 0 = t.slots.getD j 0 → i = j) ∧
  (∀ p0, p0 < t.capacity + 1 → ∃ S, S < t.capacity + 1 ∧ ∃ l, l < 8 ∧
    t.ctrl.getD ((probeAt t.capacity p0 S).offset + l) 0 = CWISS_kEmpty) ∧
  (∀ j, j < t.capacity → CWISS_IsFull (t.ctrl.getD j 0) = true →
    ∃ T, T < t.capacity + 1 ∧
      (∃ l, l < 8 ∧
        ((probeAt t.capacity
            (CWISS_H1 (hh (t.slots.getD j 0)) &&& t.capacity) T).offset + l) %
          (t.capacity + 1) = j ∧
        t.ctrl.getD ((probeAt t.capacity
            (CWISS_H1 (hh (t.slots.getD j 0)) &&& t.capacity) T).offset + l) 0 =
          t.ctrl.getD j 0) ∧
      (∀ S, S < T → ∀ l, l < 8 →
        t.ctrl.getD ((probeAt t.capacity
            (CWISS_H1 (hh (t.slots.getD j 0)) &&& t.capacity) S).offset + l) 0 ≠
          CWISS_kEmpty))

set_option synthInstance.maxSize 2000 in
set_option maxHeartbeats 1000000 in
instance (hh : Nat → Nat) (t : CWISS_RawHashSet) : Decidable (Wf hh t) := by
  unfold Wf
  infer_instance

/-  =====================================================================
    Theorems.  First a toolkit about little-endian bytes of 64-bit words.
    =====================================================================  -/

theorem byteAt_lt (n j : Nat) : byteAt n j < 256 :=
  Nat.mod_lt _ (by norm_num)

theorem byteAt_testBit (n j i : Nat) (hi : i < 8) :
    (byteAt n j).testBit i = n.testBit (8 * j + i) := by
  unfold byteAt
  rw [show (256 : Nat) = 2 ^ 8 by norm_num, Nat.testBit_mod_two_pow,
    ← Nat.shiftRight_eq_div_pow, Nat.testBit_shiftRight]
  simp [hi]

theorem byteAt_msb (n j : Nat) :
    n.testBit (8 * j + 7) = decide (128 ≤ byteAt n j) := by
  rw [← byteAt_testBit n j 7 (by norm_num), Nat.testBit_to_div_mod]
  have h := byteAt_lt n j
  simp only [decide_eq_decide]
  omega

theorem byteAt_mod64 (n j : Nat) (hj : j < 8) :
    byteAt (n % 2 ^ 64) j = byteAt n j := by
  unfold byteAt
  have h64 : (2 : Nat) ^ 64 = 2 ^ (8 * j) * 2 ^ (64 - 8 * j) := by
    rw [← pow_add]; congr 1; omega
  have hdvd : (256 : Nat) ∣ 2 ^ (64 - 8 * j) := by
    have := pow_dvd_pow 2 (by omega : 8 ≤ 64 - 8 * j)
    simpa using this
  rw [h64, Nat.mod_mul_right_div_self, Nat.mod_mod_of_dvd _ hdvd]

theorem carry_le_one (a b c : Nat) (hc : 0 < c) : (a % c + b % c) / c ≤ 1 := by
  have ha := Nat.mod_lt a hc
  have hb := Nat.mod_lt b hc
  have : a % c + b % c < 2 * c := by omega
  have := Nat.div_lt_of_lt_mul (by omega : a % c + b % c < c * 2)
  omega

theorem byteAt_add (a b j : Nat) :
    byteAt (a + b) j =
      (byteAt a j + byteAt b j +
        (a % 2 ^ (8 * j) + b % 2 ^ (8 * j)) / 2 ^ (8 * j)) % 256 := by
  unfold byteAt
  have hc : (0 : Nat) < 2 ^ (8 * j) := Nat.pos_pow_of_pos _ (by norm_num)
  rw [Nat.add_div hc]
  have hif : (a % 2 ^ (8 * j) + b % 2 ^ (8 * j)) / 2 ^ (8 * j) =
      if 2 ^ (8 * j) ≤ a % 2 ^ (8 * j) + b % 2 ^ (8 * j) then 1 else 0 := by
    have ha := Nat.mod_lt a hc
    have hb := Nat.mod_lt b hc
    split
    · exact Nat.div_eq_of_lt_le (by omega) (by omega)
    · exact Nat.div_eq_of_lt (by omega)
  rw [hif]
  split <;> omega

theorem byteAt_xor (a b j : Nat) :
    byteAt (a ^^^ b) j = byteAt a j ^^^ byteAt b j := by
  apply Nat.eq_of_testBit_eq
  intro i
  rcases Nat.lt_or_ge i 8 with hi | hi
  · rw [byteAt_testBit _ _ _ hi, Nat.testBit_xor, Nat.testBit_xor,
      byteAt_testBit _ _ _ hi, byteAt_testBit _ _ _ hi]
  · have h256 : (256 : Nat) ≤ 2 ^ i :=
      le_trans (by norm_num : (256 : Nat) ≤ 2 ^ 8)
        (Nat.pow_le_pow_right (by norm_num) hi)
    have ha : byteAt a j < 2 ^ 8 := by simpa using byteAt_lt a j
    have hb : byteAt b j < 2 ^ 8 := by simpa using byteAt_lt b j
    rw [Nat.testBit_eq_false_of_lt (lt_of_lt_of_le (byteAt_lt _ _) h256),
      Nat.testBit_eq_false_of_lt
        (lt_of_lt_of_le (Nat.xor_lt_two_pow ha hb)
          (le_trans (by norm_num) h256))]

theorem byte_of_repl (h2 j lo hi : Nat) (hh : h2 < 256)
    (hsplit : CWISS_lsbs = lo + 2 ^ (8 * j) * hi)
    (hlo : lo * 255 < 2 ^ (8 * j))
    (hhi : hi % 256 = 1) :
    byteAt (CWISS_lsbs * h2) j = h2 := by
  unfold byteAt
  rw [hsplit]
  have h1 : (lo + 2 ^ (8 * j) * hi) * h2 = 2 ^ (8 * j) * (hi * h2) + lo * h2 := by
    ring
  rw [h1]
  have hpos : (0 : Nat) < 2 ^ (8 * j) := Nat.pos_pow_of_pos _ (by norm_num)
  have hlo2 : lo * h2 < 2 ^ (8 * j) :=
    lt_of_le_of_lt (Nat.mul_le_mul_left lo (by omega)) hlo
  rw [Nat.mul_add_div hpos, Nat.div_eq_of_lt hlo2, Nat.add_zero, Nat.mul_mod, hhi,
    Nat.one_mul]
  omega

theorem byteAt_lsbs_mul (h2 j : Nat) (hh : h2 < 256) (hj : j < 8) :
    byteAt (CWISS_lsbs * h2) j = h2 := by
  interval_cases j
  · exact byte_of_repl h2 0 0 0x0101010101010101 hh (by norm_num [CWISS_lsbs])
      (by norm_num) (by norm_num)
  · exact byte_of_repl h2 1 0x01 0x01010101010101 hh (by norm_num [CWISS_lsbs])
      (by norm_num) (by norm_num)
  · exact byte_of_repl h2 2 0x0101 0x010101010101 hh (by norm_num [CWISS_lsbs])
      (by norm_num) (by norm_num)
  · exact byte_of_repl h2 3 0x010101 0x0101010101 hh (by norm_num [CWISS_lsbs])
      (by norm_num) (by norm_num)
  · exact byte_of_repl h2 4 0x01010101 0x01010101 hh (by norm_num [CWISS_lsbs])
      (by norm_num) (by norm_num)
  · exact byte_of_repl h2 5 0x0101010101 0x010101 hh (by norm_num [CWISS_lsbs])
      (by norm_num) (by norm_num)
  · exact byte_of_repl h2 6 0x010101010101 0x0101 hh (by norm_num [CWISS_lsbs])
      (by norm_num) (by norm_num)
  · exact byte_of_repl h2 7 0x01010101010101 0x01 hh (by norm_num [CWISS_lsbs])
      (by norm_num) (by norm_num)

theorem msbs_testBit (k : Nat) :
    CWISS_msbs.testBit k = (decide (k % 8 = 7) && decide (k < 64)) := by
  rcases Nat.lt_or_ge k 64 with h | h
  · have hall : ∀ k, k < 64 →
        (CWISS_msbs.testBit k = (decide (k % 8 = 7) && decide (k < 64))) := by
      decide
    exact hall k h
  · have hlt : CWISS_msbs < 2 ^ k :=
      lt_of_lt_of_le (by norm_num [CWISS_msbs])
        (Nat.pow_le_pow_right (by norm_num) h)
    simp only [Nat.testBit_eq_false_of_lt hlt, Bool.false_eq,
      Bool.and_eq_false_iff, decide_eq_false_iff_not]
    omega

theorem byte_msb (b : Nat) (hb : b < 256) : b.testBit 7 = decide (128 ≤ b) := by
  rw [Nat.testBit_to_div_mod]
  simp only [decide_eq_decide]
  omega

theorem lsbs_mul_lt (h2 : Nat) (hh : h2 < 128) : CWISS_lsbs * h2 < 2 ^ 64 := by
  calc CWISS_lsbs * h2 ≤ CWISS_lsbs * 127 := Nat.mul_le_mul_left _ (by omega)
  _ < 2 ^ 64 := by norm_num [CWISS_lsbs]

theorem byteK (l : Nat) (hl : l < 8) :
    byteAt 0xFEFEFEFEFEFEFEFF l = if l = 0 then 255 else 254 := by
  have hall : ∀ l, l < 8 →
      byteAt 0xFEFEFEFEFEFEFEFF l = if l = 0 then 255 else 254 := by decide
  exact hall l hl

theorem Kmod (l : Nat) (h1 : 1 ≤ l) (hl : l < 8) :
    0xFEFEFEFEFEFEFEFF % 2 ^ (8 * l) = 2 ^ (8 * l) - repunit l := by
  have hall : ∀ l, l < 8 → 1 ≤ l →
      0xFEFEFEFEFEFEFEFF % 2 ^ (8 * l) = 2 ^ (8 * l) - repunit l := by decide
  exact hall l hl h1


theorem mod_ge_repunit (x : Nat) :
    ∀ l, (∀ i, i < l → 1 ≤ byteAt x i) → repunit l ≤ x % 2 ^ (8 * l)
  | 0, _ => Nat.zero_le _
  | l + 1, h => by
    have h256 : (2 : Nat) ^ (8 * (l + 1)) = 2 ^ (8 * l) * 256 := by
      rw [show 8 * (l + 1) = 8 * l + 8 by ring, pow_add]
      norm_num
    have hsplit : x % 2 ^ (8 * (l + 1)) =
        x % 2 ^ (8 * l) + 2 ^ (8 * l) * byteAt x l := by
      rw [h256, Nat.mod_mul]
      rfl
    have ih := mod_ge_repunit x l (fun i hi => h i (by omega))
    have hb : 1 ≤ byteAt x l := h l (by omega)
    calc repunit (l + 1) = repunit l + 2 ^ (8 * l) := rfl
    _ ≤ x % 2 ^ (8 * l) + 2 ^ (8 * l) * byteAt x l := by
        have := Nat.mul_le_mul_left (2 ^ (8 * l)) hb
        omega
    _ = x % 2 ^ (8 * (l + 1)) := hsplit.symm

theorem match_carry_one (x l : Nat) (h1 : 1 ≤ l) (hl : l < 8)
    (h : ∀ i, i < l → 1 ≤ byteAt x i) :
    (x % 2 ^ (8 * l) + 0xFEFEFEFEFEFEFEFF % 2 ^ (8 * l)) / 2 ^ (8 * l) = 1 := by
  have hK := Kmod l h1 hl
  have hx := mod_ge_repunit x l h
  have hpos : (0 : Nat) < 2 ^ (8 * l) := Nat.pos_pow_of_pos _ (by norm_num)
  have hxlt : x % 2 ^ (8 * l) < 2 ^ (8 * l) := Nat.mod_lt _ hpos
  have hKlt : 0xFEFEFEFEFEFEFEFF % 2 ^ (8 * l) < 2 ^ (8 * l) := Nat.mod_lt _ hpos
  have hrep : repunit l ≤ 2 ^ (8 * l) := by
    have : repunit l ≤ x % 2 ^ (8 * l) := hx
    omega
  apply Nat.div_eq_of_lt_le (by omega) (by omega)

theorem Group_Match_hit (g h2 l : Nat) (hh : h2 < 128) (hl : l < 8)
    (hbyte : byteAt g l = h2) :
    (CWISS_Group_Match g h2).testBit (8 * l + 7) = true := by
  have hmul := Nat.mod_eq_of_lt (lsbs_mul_lt h2 hh)
  unfold CWISS_Group_Match
  rw [hmul]
  have hxbyte : byteAt (g ^^^ CWISS_lsbs * h2) l = 0 := by
    rw [byteAt_xor, byteAt_lsbs_mul h2 l (by omega) hl, hbyte, Nat.xor_self]
  rw [Nat.testBit_and, Nat.testBit_and]
  have hmsbs : CWISS_msbs.testBit (8 * l + 7) = true := by
    rw [msbs_testBit]
    simp only [Bool.and_eq_true, decide_eq_true_eq]
    omega
  have hKval : (2 ^ 64 - CWISS_lsbs : Nat) = 0xFEFEFEFEFEFEFEFF := by
    norm_num [CWISS_lsbs]
  have hsub : (((g ^^^ CWISS_lsbs * h2) + (2 ^ 64 - CWISS_lsbs)) % 2 ^ 64).testBit
      (8 * l + 7) = true := by
    rw [byteAt_msb, byteAt_mod64 _ _ hl, hKval, byteAt_add, hxbyte, byteK l hl]
    rcases Nat.eq_zero_or_pos l with rfl | hpos
    · norm_num [Nat.mod_one]
    · have hc := carry_le_one (g ^^^ CWISS_lsbs * h2) 0xFEFEFEFEFEFEFEFF
        (2 ^ (8 * l)) (Nat.pos_pow_of_pos _ (by norm_num))
      have hne : l ≠ 0 := by omega
      simp only [hne, if_false, decide_eq_true_eq]
      rcases Nat.le_one_iff_eq_zero_or_eq_one.mp hc with h0 | h1
      · rw [h0]
        norm_num
      · rw [h1]
        norm_num
  have hnot : ((g ^^^ CWISS_lsbs * h2) ^^^ (2 ^ 64 - 1)).testBit (8 * l + 7) = true := by
    rw [Nat.testBit_xor]
    have hx7 : (g ^^^ CWISS_lsbs * h2).testBit (8 * l + 7) = false := by
      rw [byteAt_msb, hxbyte]
      simp
    rw [hx7, show (2 : Nat) ^ 64 - 1 = 2 ^ 64 - 1 from rfl]
    rw [Nat.testBit_two_pow_sub_one]
    simp only [Bool.false_xor, decide_eq_true_eq]
    omega
  rw [hsub, hnot, hmsbs]
  rfl

theorem Group_Match_special (g h2 l : Nat) (hh : h2 < 128) (hl : l < 8)
    (hbyte : 128 ≤ byteAt g l) :
    (CWISS_Group_Match g h2).testBit (8 * l + 7) = false := by
  have hmul := Nat.mod_eq_of_lt (lsbs_mul_lt h2 hh)
  unfold CWISS_Group_Match
  rw [hmul, Nat.testBit_and, Nat.testBit_and]
  have hxbyte : byteAt (g ^^^ CWISS_lsbs * h2) l = byteAt g l ^^^ h2 := by
    rw [byteAt_xor, byteAt_lsbs_mul h2 l (by omega) hl]
  have hxmsb : 128 ≤ byteAt (g ^^^ CWISS_lsbs * h2) l := by
    rw [hxbyte]
    have h7 : (byteAt g l ^^^ h2).testBit 7 = true := by
      rw [Nat.testBit_xor, byte_msb _ (byteAt_lt g l),
        Nat.testBit_eq_false_of_lt (show h2 < 2 ^ 7 by omega)]
      simp [hbyte]
    have := Nat.testBit_implies_ge h7
    omega
  have hn : ((g ^^^ CWISS_lsbs * h2) ^^^ (2 ^ 64 - 1)).testBit (8 * l + 7) = false := by
    rw [Nat.testBit_xor, Nat.testBit_two_pow_sub_one]
    have hx7 : (g ^^^ CWISS_lsbs * h2).testBit (8 * l + 7) = true := by
      rw [byteAt_msb]
      simp [hxmsb]
    rw [hx7]
    have h64 : 8 * l + 7 < 64 := by omega
    simp [h64]
  rw [hn]
  simp

theorem Group_Match_no_byte (g h2 : Nat) (hh : h2 < 128)
    (hmiss : ∀ i, i < 8 → byteAt g i ≠ h2) :
    CWISS_Group_Match g h2 = 0 := by
  apply Nat.eq_of_testBit_eq
  intro k
  rw [Nat.zero_testBit]
  by_cases hk : k % 8 = 7 ∧ k < 64
  · obtain ⟨hk7, hk64⟩ := hk
    have hl8 : k / 8 < 8 := by omega
    have hkeq : k = 8 * (k / 8) + 7 := by omega
    rw [hkeq]
    by_cases hfull : 128 ≤ byteAt g (k / 8)
    · exact Group_Match_special g h2 (k / 8) hh hl8 hfull
    · have hmul := Nat.mod_eq_of_lt (lsbs_mul_lt h2 hh)
      unfold CWISS_Group_Match
      rw [hmul, Nat.testBit_and, Nat.testBit_and]
      have hKval : (2 ^ 64 - CWISS_lsbs : Nat) = 0xFEFEFEFEFEFEFEFF := by
        norm_num [CWISS_lsbs]
      have hxbyte : ∀ i, i < 8 →
          byteAt (g ^^^ CWISS_lsbs * h2) i = byteAt g i ^^^ h2 := fun i hi => by
        rw [byteAt_xor, byteAt_lsbs_mul h2 i (by omega) hi]
      have hne0 : byteAt g (k / 8) ^^^ h2 ≠ 0 := by
        rw [Ne, Nat.xor_eq_zero]
        exact hmiss (k / 8) hl8
      have hlt : byteAt g (k / 8) ^^^ h2 < 128 := by
        have hb1 : byteAt g (k / 8) < 2 ^ 7 := by omega
        have hb2 : h2 < 2 ^ 7 := by omega
        have := Nat.xor_lt_two_pow hb1 hb2
        omega
      have hsub : (((g ^^^ CWISS_lsbs * h2) + (2 ^ 64 - CWISS_lsbs)) % 2 ^ 64).testBit
          (8 * (k / 8) + 7) = false := by
        rw [byteAt_msb, byteAt_mod64 _ _ hl8, hKval, byteAt_add, hxbyte _ hl8,
          byteK _ hl8]
        rcases Nat.eq_zero_or_pos (k / 8) with hz | hpos
        · rw [hz] at hne0 hlt ⊢
          simp only [Nat.mul_zero, pow_zero, Nat.mod_one, Nat.add_zero,
            Nat.div_one, if_pos rfl, decide_eq_false_iff_not, Nat.not_le,
            decide_True, if_true]
          omega
        · have hcarry := match_carry_one (g ^^^ CWISS_lsbs * h2) (k / 8)
            (by omega) hl8 (fun i hi => by
              rw [hxbyte i (by omega)]
              have : byteAt g i ^^^ h2 ≠ 0 := by
                rw [Ne, Nat.xor_eq_zero]
                exact hmiss i (by omega)
              omega)
          rw [hcarry]
          have hne : k / 8 ≠ 0 := by omega
          simp only [hne, if_false, decide_eq_false_iff_not, Nat.not_le]
          omega
      rw [hsub]
      simp
  · have hm : CWISS_msbs.testBit k = false := by
      rw [msbs_testBit]
      simp only [Bool.and_eq_false_iff, decide_eq_false_iff_not]
      omega
    unfold CWISS_Group_Match
    rw [Nat.testBit_and, hm]
    simp

theorem MatchEmpty_testBit (g l : Nat) (hl : l < 8) :
    (CWISS_Group_MatchEmpty g).testBit (8 * l + 7) =
      (decide (128 ≤ byteAt g l) && !(byteAt g l).testBit 1) := by
  unfold CWISS_Group_MatchEmpty
  rw [Nat.testBit_and, Nat.testBit_and]
  have hmsbs : CWISS_msbs.testBit (8 * l + 7) = true := by
    rw [msbs_testBit]
    simp only [Bool.and_eq_true, decide_eq_true_eq]
    omega
  rw [hmsbs, Bool.and_true]
  have hshift : ((((g ^^^ (2 ^ 64 - 1)) <<< 6) % 2 ^ 64)).testBit (8 * l + 7) =
      !(byteAt g l).testBit 1 := by
    rw [Nat.testBit_mod_two_pow]
    have h64 : 8 * l + 7 < 64 := by omega
    simp only [h64, decide_True, Bool.true_and]
    rw [Nat.testBit_shiftLeft]
    have hge : 6 ≤ 8 * l + 7 := by omega
    simp only [ge_iff_le, hge, decide_True, Bool.true_and]
    have heq : 8 * l + 7 - 6 = 8 * l + 1 := by omega
    rw [heq, Nat.testBit_xor, Nat.testBit_two_pow_sub_one]
    have h64b : 8 * l + 1 < 64 := by omega
    simp only [h64b, decide_True, Bool.xor_true]
    rw [byteAt_testBit g l 1 (by norm_num)]
  rw [hshift, byteAt_msb]

theorem MatchEmptyOrDeleted_testBit (g l : Nat) (hl : l < 8) :
    (CWISS_Group_MatchEmptyOrDeleted g).testBit (8 * l + 7) =
      (decide (128 ≤ byteAt g l) && !(byteAt g l).testBit 0) := by
  unfold CWISS_Group_MatchEmptyOrDeleted
  rw [Nat.testBit_and, Nat.testBit_and]
  have hmsbs : CWISS_msbs.testBit (8 * l + 7) = true := by
    rw [msbs_testBit]
    simp only [Bool.and_eq_true, decide_eq_true_eq]
    omega
  rw [hmsbs, Bool.and_true]
  have hshift : ((((g ^^^ (2 ^ 64 - 1)) <<< 7) % 2 ^ 64)).testBit (8 * l + 7) =
      !(byteAt g l).testBit 0 := by
    rw [Nat.testBit_mod_two_pow]
    have h64 : 8 * l + 7 < 64 := by omega
    simp only [h64, decide_True, Bool.true_and]
    rw [Nat.testBit_shiftLeft]
    have hge : 7 ≤ 8 * l + 7 := by omega
    simp only [ge_iff_le, hge, decide_True, Bool.true_and]
    have heq : 8 * l + 7 - 7 = 8 * l + 0 := by omega
    rw [heq, Nat.testBit_xor, Nat.testBit_two_pow_sub_one]
    have h64b : 8 * l + 0 < 64 := by omega
    simp only [h64b, decide_True, Bool.xor_true]
    rw [byteAt_testBit g l 0 (by norm_num)]
  rw [hshift, byteAt_msb]

theorem matchEmpty_lane_val (b : Nat) (hok : ctrlByteOk b) :
    (decide (128 ≤ b) && !b.testBit 1) = decide (b = CWISS_kEmpty) := by
  rcases hok with h | rfl | rfl | rfl
  · have h1 : ¬(128 ≤ b) := by omega
    have h2 : ¬(b = CWISS_kEmpty) := by
      unfold CWISS_kEmpty
      omega
    simp [h1, h2]
  · decide
  · decide
  · decide

theorem matchEmptyOrDeleted_lane_val (b : Nat) (hok : ctrlByteOk b) :
    (decide (128 ≤ b) && !b.testBit 0) =
      decide (b = CWISS_kEmpty ∨ b = CWISS_kDeleted) := by
  rcases hok with h | rfl | rfl | rfl
  · have h1 : ¬(128 ≤ b) := by omega
    have h2 : ¬(b = CWISS_kEmpty ∨ b = CWISS_kDeleted) := by
      unfold CWISS_kEmpty CWISS_kDeleted
      omega
    simp [h1, h2]
  · decide
  · decide
  · decide

/-- C4: for every 8-byte SWAR group g and every h2 in [0, 127],
CWISS_Group_Match sets the lane bit (the MSB of lane l, bit 8l+7) for every
byte of g that equals h2 (no false negatives), never sets a lane bit for a
byte that is Empty, Deleted or Sentinel, and produces no set lane at all
when no byte of the group equals h2, so a false-positive lane can occur
only when some byte of the group genuinely equals h2. -/
theorem C4_Group_Match_lanes (g h2 : Nat) (hg : g < 2 ^ 64) (hh : h2 ≤ 127) :
    (∀ l, l < 8 → byteAt g l = h2 →
      (CWISS_Group_Match g h2).testBit (8 * l + 7) = true) ∧
    (∀ l, l < 8 →
      (byteAt g l = CWISS_kEmpty ∨ byteAt g l = CWISS_kDeleted ∨
        byteAt g l = CWISS_kSentinel) →
      (CWISS_Group_Match g h2).testBit (8 * l + 7) = false) ∧
    ((∀ l, l < 8 → byteAt g l ≠ h2) → CWISS_Group_Match g h2 = 0) := by
  refine ⟨fun l hl hb => Group_Match_hit g h2 l (by omega) hl hb,
    fun l hl hb => Group_Match_special g h2 l (by omega) hl ?_,
    fun hm => Group_Match_no_byte g h2 (by omega) hm⟩
  rcases hb with h | h | h <;> rw [h]
  · norm_num [CWISS_kEmpty]
  · norm_num [CWISS_kDeleted]
  · norm_num [CWISS_kSentinel]

/-- Witness for C4 at the concrete group with little-endian bytes
0x11, 0x22, 0x05, 0x00, 0xFE, 0x80, 0xFF, 0x7F and h2 = 5: lane 2 holds
the matching byte 5, lane 4 holds the Deleted byte. -/
theorem C4_Group_Match_lanes_witness :
    (CWISS_Group_Match 0x7FFF80FE00052211 5).testBit (8 * 2 + 7) = true ∧
    (CWISS_Group_Match 0x7FFF80FE00052211 5).testBit (8 * 4 + 7) = false := by
  have h := C4_Group_Match_lanes 0x7FFF80FE00052211 5 (by norm_num) (by norm_num)
  exact ⟨h.1 2 (by norm_num) (by decide),
    h.2.1 4 (by norm_num) (Or.inr (Or.inl (by decide)))⟩

/-- C6 counterexample: the claim says CapacityToGrowth c = c - c / 8 for
every valid capacity, but integer arithmetic gives 7 - 7 / 8 = 7 while the
function returns 6 at the documented corner; and it says g + (g - 1) / 7
equals the ceiling of 8 g / 7, refuted at g = 1 where the function returns
1 but the ceiling is 2. -/
theorem C6_capacity_growth_counterexample :
    CWISS_IsValidCapacity 7 = true ∧
    CWISS_CapacityToGrowth 7 ≠ 7 - 7 / 8 ∧
    CWISS_GrowthToLowerboundCapacity 1 = 1 + (1 - 1) / 7 ∧
    CWISS_GrowthToLowerboundCapacity 1 ≠ (8 * 1 + 6) / 7 := by
  refine ⟨by decide, by decide, by decide, by decide⟩

/-- C6 amended: for every valid capacity c other than 7,
CWISS_CapacityToGrowth c = c - c / 8, and CWISS_CapacityToGrowth 7 = 6;
for every growth g other than 7, CWISS_GrowthToLowerboundCapacity g =
g + (g - 1) / 7 (which is not the ceiling of 8 g / 7 in general), and
CWISS_GrowthToLowerboundCapacity 7 = 8. -/
theorem C6_capacity_growth_amended :
    (∀ c, CWISS_IsValidCapacity c = true → c ≠ 7 →
      CWISS_CapacityToGrowth c = c - c / 8) ∧
    CWISS_CapacityToGrowth 7 = 6 ∧
    (∀ g, g ≠ 7 → CWISS_GrowthToLowerboundCapacity g = g + (g - 1) / 7) ∧
    CWISS_GrowthToLowerboundCapacity 7 = 8 := by
  refine ⟨fun c _ hc => by simp [CWISS_CapacityToGrowth, hc], by decide,
    fun g hg => by simp [CWISS_GrowthToLowerboundCapacity, hg], by decide⟩

/-- Witness for the amended C6 at capacity 15 and growth 8. -/
theorem C6_capacity_growth_amended_witness :
    CWISS_CapacityToGrowth 15 = 15 - 15 / 8 ∧
    CWISS_GrowthToLowerboundCapacity 8 = 8 + (8 - 1) / 7 :=
  ⟨C6_capacity_growth_amended.1 15 (by decide) (by decide),
    C6_capacity_growth_amended.2.2.1 8 (by decide)⟩

theorem tri_two_mul : ∀ t, 2 * tri t = t * (t + 1)
  | 0 => rfl
  | t + 1 => by
    have := tri_two_mul t
    unfold tri
    ring_nf
    ring_nf at this
    omega

theorem tri_mono {s t : Nat} (h : s ≤ t) : tri s ≤ tri t := by
  induction t with
  | zero =>
    have hs : s = 0 := by omega
    simp [hs]
  | succ t ih =>
    have hstep : tri (t + 1) = tri t + (t + 1) := rfl
    rcases Nat.lt_or_ge s (t + 1) with h1 | h1
    · have := ih (by omega)
      omega
    · have hs : s = t + 1 := by omega
      simp [hs]

theorem probeIter_offset (o0 k : Nat) :
    ∀ t, (probeIter (CWISS_probe_seq_new o0 (2 ^ k - 1)) t).offset =
        (o0 + 8 * tri t) % 2 ^ k ∧
      (probeIter (CWISS_probe_seq_new o0 (2 ^ k - 1)) t).index = 8 * t ∧
      (probeIter (CWISS_probe_seq_new o0 (2 ^ k - 1)) t).mask = 2 ^ k - 1
  | 0 => by
    refine ⟨?_, rfl, rfl⟩
    show o0 &&& (2 ^ k - 1) = (o0 + 8 * tri 0) % 2 ^ k
    rw [Nat.and_pow_two_sub_one_eq_mod]
    simp [tri]
  | t + 1 => by
    obtain ⟨ho, hi, hm⟩ := probeIter_offset o0 k t
    unfold probeIter CWISS_probe_seq_next
    refine ⟨?_, by simp [hi]; ring, hm⟩
    simp only [ho, hi, hm]
    rw [Nat.and_pow_two_sub_one_eq_mod, Nat.mod_add_mod]
    congr 1
    rw [show tri (t + 1) = tri t + (t + 1) from rfl]
    ring

theorem tri_offsets_distinct (k o0 s t : Nat) (hst : s < t) (ht : t < 2 ^ k / 8) :
    (o0 + 8 * tri s) % 2 ^ k ≠ (o0 + 8 * tri t) % 2 ^ k := by
  have hk3 : 3 ≤ k := by
    by_contra h
    interval_cases k <;> omega
  intro heq
  have hmono : tri s ≤ tri t := tri_mono (le_of_lt hst)
  have hdvd : 2 ^ k ∣ 8 * (tri t - tri s) := by
    have h1 : 2 ^ k ∣ (o0 + 8 * tri t) - (o0 + 8 * tri s) :=
      (Nat.modEq_iff_dvd' (by omega)).mp heq
    have h2 : (o0 + 8 * tri t) - (o0 + 8 * tri s) = 8 * (tri t - tri s) := by
      omega
    rwa [h2] at h1
  have hdvd2 : 2 ^ (k - 3) ∣ tri t - tri s := by
    have hk : (2 : Nat) ^ k = 2 ^ 3 * 2 ^ (k - 3) := by
      rw [← pow_add]
      congr 1
      omega
    rw [hk, show (8 : Nat) = 2 ^ 3 by norm_num] at hdvd
    exact (Nat.mul_dvd_mul_iff_left (by norm_num : (0 : Nat) < 2 ^ 3)).mp hdvd
  have hprod : 2 * (tri t - tri s) = (t - s) * (t + s + 1) := by
    have h2s := tri_two_mul s
    have h2t := tri_two_mul t
    zify [hmono, le_of_lt hst]
    zify at h2s h2t
    linear_combination h2t - h2s
  have hdvd3 : 2 ^ (k - 2) ∣ (t - s) * (t + s + 1) := by
    rw [← hprod, show (2 : Nat) ^ (k - 2) = 2 * 2 ^ (k - 3) by
      rw [← pow_succ']
      congr 1
      omega]
    exact Nat.mul_dvd_mul_left 2 hdvd2
  have htk : t < 2 ^ (k - 3) := by
    have : (2 : Nat) ^ k / 8 = 2 ^ (k - 3) := by
      rw [show (8 : Nat) = 2 ^ 3 by norm_num, Nat.pow_div (by omega) (by norm_num)]
    omega
  have hpow : (2 : Nat) ^ (k - 2) = 2 * 2 ^ (k - 3) := by
    rw [← pow_succ']
    congr 1
    omega
  rcases Nat.even_or_odd (t - s) with he | ho
  · have hodd : Odd (t + s + 1) := by
      rcases he with ⟨m, hm⟩
      exact ⟨s + m, by omega⟩
    have hco : Nat.Coprime (2 ^ (k - 2)) (t + s + 1) :=
      Nat.Coprime.pow_left _ (Nat.coprime_two_left.mpr hodd)
    have hdvd4 : 2 ^ (k - 2) ∣ t - s := hco.dvd_of_dvd_mul_right hdvd3
    have hle := Nat.le_of_dvd (by omega) hdvd4
    omega
  · have hco : Nat.Coprime (2 ^ (k - 2)) (t - s) :=
      Nat.Coprime.pow_left _ (Nat.coprime_two_left.mpr ho)
    have hdvd4 : 2 ^ (k - 2) ∣ t + s + 1 := hco.dvd_of_dvd_mul_left hdvd3
    have hle := Nat.le_of_dvd (by omega) hdvd4
    omega

/-- C5: for a capacity of the form 2^k - 1 and any starting offset, the
probe sequence (CWISS_probe_seq_next adds 8 to index and then masks
offset + index) produces pairwise distinct offsets over the first
(capacity + 1) / 8 steps: triangular-number probing modulo a power of two
visits every group start at most once in that range. -/
theorem C5_probe_offsets_distinct (k o0 s t : Nat) (hst : s < t)
    (ht : t < (2 ^ k - 1 + 1) / 8) :
    (probeIter (CWISS_probe_seq_new o0 (2 ^ k - 1)) s).offset ≠
      (probeIter (CWISS_probe_seq_new o0 (2 ^ k - 1)) t).offset := by
  have hpos : (1 : Nat) ≤ 2 ^ k := Nat.one_le_two_pow
  have hk : 2 ^ k - 1 + 1 = 2 ^ k := by omega
  rw [(probeIter_offset o0 k s).1, (probeIter_offset o0 k t).1]
  exact tri_offsets_distinct k o0 s t hst (by omega)

/-- Witness for C5: with k = 5 (capacity 31), start offset 3, steps 0 and 1
give distinct offsets. -/
theorem C5_probe_offsets_distinct_witness :
    (probeIter (CWISS_probe_seq_new 3 (2 ^ 5 - 1)) 0).offset ≠
      (probeIter (CWISS_probe_seq_new 3 (2 ^ 5 - 1)) 1).offset :=
  C5_probe_offsets_distinct 5 3 0 1 (by decide) (by decide)

/-  ============  list access helpers  ============  -/

theorem getD_set_eq (l : List Nat) (i a : Nat) (h : i < l.length) :
    (l.set i a).getD i 0 = a := by
  rw [List.getD_eq_getElem?_getD, List.getElem?_set_self']
  simp [h]

theorem getD_set_ne (l : List Nat) (i j a : Nat) (h : i ≠ j) :
    (l.set i a).getD j 0 = l.getD j 0 := by
  rw [List.getD_eq_getElem?_getD, List.getElem?_set_ne h,
    ← List.getD_eq_getElem?_getD]

theorem getD_replicate (n v j : Nat) (h : j < n) :
    (List.replicate n v).getD j 0 = v := by
  rw [List.getD_eq_getElem?_getD, List.getElem?_replicate]
  simp [h]

theorem getD_ge_length (l : List Nat) (j : Nat) (h : l.length ≤ j) :
    l.getD j 0 = 0 := by
  rw [List.getD_eq_getElem?_getD, List.getElem?_eq_none (by omega)]
  rfl

theorem SetCtrl_mirror (i k : Nat) (hk : k ≤ 64) (hk0 : 1 ≤ k)
    (hi : i < 2 ^ k - 1) :
    (((i + 2 ^ 64 - 7) % 2 ^ 64) &&& (2 ^ k - 1)) + (7 &&& (2 ^ k - 1)) =
      if i < 7 then (2 ^ k - 1) + 1 + i else i := by
  have hdvd : (2 : Nat) ^ k ∣ 2 ^ 64 := pow_dvd_pow 2 hk
  have hpos : (0 : Nat) < 2 ^ k := Nat.pos_pow_of_pos _ (by norm_num)
  rw [Nat.and_pow_two_sub_one_eq_mod, Nat.and_pow_two_sub_one_eq_mod,
    Nat.mod_mod_of_dvd _ hdvd]
  obtain ⟨d, hd⟩ := hdvd
  have hd1 : 1 ≤ d := by
    rcases Nat.eq_zero_or_pos d with rfl | h
    · simp at hd
    · omega
  rcases Nat.lt_or_ge k 3 with hk3 | hk3
  · -- capacity 1 or 3: i ranges over at most {0, 1, 2}
    interval_cases k
    · interval_cases i
      · decide
    · interval_cases i
      · decide
      · decide
      · decide
  · -- k >= 3: 7 < 2 ^ k
    have h8 : (8 : Nat) ≤ 2 ^ k := by
      calc (8 : Nat) = 2 ^ 3 := by norm_num
      _ ≤ 2 ^ k := Nat.pow_le_pow_right (by norm_num) hk3
    have h7 : (7 : Nat) % 2 ^ k = 7 := Nat.mod_eq_of_lt (by omega)
    rw [h7]
    have hA : 2 ^ k * (d - 1) + 2 ^ k = 2 ^ k * d := by
      rw [← Nat.mul_succ]
      congr 1
      omega
    rcases Nat.lt_or_ge i 7 with hi7 | hi7
    · have hsplit : i + 2 ^ 64 - 7 = 2 ^ k * (d - 1) + (2 ^ k - (7 - i)) := by
        omega
      rw [hsplit, Nat.mul_add_mod, Nat.mod_eq_of_lt (by omega), if_pos hi7]
      omega
    · have hsplit : i + 2 ^ 64 - 7 = 2 ^ k * d + (i - 7) := by omega
      rw [hsplit, Nat.mul_add_mod, Nat.mod_eq_of_lt (by omega),
        if_neg (by omega : ¬ i < 7)]
      omega

theorem SetCtrl_getD (i h k : Nat) (ctrl : List Nat) (hk : k ≤ 64) (hk0 : 1 ≤ k)
    (hi : i < 2 ^ k - 1) (hlen : ctrl.length = (2 ^ k - 1) + 8) (j : Nat) :
    (CWISS_SetCtrl i h (2 ^ k - 1) ctrl).getD j 0 =
      if j = i ∨ (i < 7 ∧ j = (2 ^ k - 1) + 1 + i) then h
      else ctrl.getD j 0 := by
  unfold CWISS_SetCtrl
  rw [SetCtrl_mirror i k hk hk0 hi]
  have hleni : i < ctrl.length := by omega
  by_cases him : i < 7
  · rw [if_pos him]
    by_cases hj : j = (2 ^ k - 1) + 1 + i
    · subst hj
      rw [getD_set_eq _ _ _ (by rw [List.length_set]; omega)]
      rw [if_pos (Or.inr ⟨him, rfl⟩)]
    · rw [getD_set_ne _ _ _ _ (fun he => hj he.symm)]
      by_cases hji : j = i
      · subst hji
        rw [getD_set_eq _ _ _ hleni, if_pos (Or.inl rfl)]
      · rw [getD_set_ne _ _ _ _ (fun he => hji he.symm),
          if_neg (by tauto)]
  · rw [if_neg him]
    by_cases hji : j = i
    · subst hji
      rw [getD_set_eq _ _ _ (by rw [List.length_set]; omega),
        if_pos (Or.inl rfl)]
    · rw [getD_set_ne _ _ _ _ (fun he => hji he.symm),
        getD_set_ne _ _ _ _ (fun he => hji he.symm),
        if_neg (by tauto)]

theorem ResetCtrl_invariant (capacity : Nat) (h : 0 < capacity) :
    ctrlInvariant capacity (CWISS_ResetCtrl capacity) ∧
      (CWISS_ResetCtrl capacity).length = capacity + 8 := by
  have hlen : (CWISS_ResetCtrl capacity).length = capacity + 8 := by
    unfold CWISS_ResetCtrl
    rw [List.length_set, List.length_replicate]
  refine ⟨⟨?_, ?_, ?_⟩, hlen⟩
  · intro i hi
    unfold CWISS_ResetCtrl
    rw [getD_set_ne _ _ _ _ (by omega), getD_replicate _ _ _ (by omega)]
    constructor
    · unfold ctrlByteOk CWISS_kEmpty
      omega
    · unfold CWISS_kEmpty CWISS_kSentinel
      omega
  · unfold CWISS_ResetCtrl
    rw [getD_set_eq _ _ _ (by rw [List.length_replicate]; omega)]
  · intro u hu
    unfold CWISS_ResetCtrl
    rw [getD_set_ne _ _ _ _ (by omega), getD_replicate _ _ _ (by omega)]
    by_cases huc : u < capacity
    · rw [if_pos huc, getD_set_ne _ _ _ _ (by omega),
        getD_replicate _ _ _ (by omega)]
    · rw [if_neg huc]

theorem SetCtrl_preserves_invariant (k i h : Nat) (ctrl : List Nat)
    (hk : k ≤ 64) (hk0 : 1 ≤ k)
    (hlen : ctrl.length = (2 ^ k - 1) + 8)
    (hinv : ctrlInvariant (2 ^ k - 1) ctrl)
    (hi : i < 2 ^ k - 1) (hok : ctrlByteOk h) (hns : h ≠ CWISS_kSentinel) :
    ctrlInvariant (2 ^ k - 1) (CWISS_SetCtrl i h (2 ^ k - 1) ctrl) ∧
      (CWISS_SetCtrl i h (2 ^ k - 1) ctrl).length = (2 ^ k - 1) + 8 := by
  obtain ⟨hin, hsent, htail⟩ := hinv
  have hget := SetCtrl_getD i h k ctrl hk hk0 hi hlen
  refine ⟨⟨?_, ?_, ?_⟩, ?_⟩
  · intro j hj
    rw [hget j]
    by_cases hc : j = i ∨ (i < 7 ∧ j = (2 ^ k - 1) + 1 + i)
    · rw [if_pos hc]
      exact ⟨hok, hns⟩
    · rw [if_neg hc]
      exact hin j hj
  · rw [hget]
    rw [if_neg (by omega)]
    exact hsent
  · intro u hu
    rw [hget, hget]
    by_cases hui : u = i
    · subst hui
      have hu7 : u < 7 := hu
      rw [if_pos (Or.inr ⟨hu7, rfl⟩), if_pos (Or.inl rfl),
        if_pos (by omega : u < 2 ^ k - 1)]
    · have hp : (1 : Nat) ≤ 2 ^ k := Nat.one_le_two_pow
      have h1 : ¬((2 ^ k - 1) + 1 + u = i ∨
          (i < 7 ∧ (2 ^ k - 1) + 1 + u = (2 ^ k - 1) + 1 + i)) := by
        omega
      rw [if_neg h1, htail u hu]
      by_cases huc : u < 2 ^ k - 1
      · have h2 : ¬(u = i ∨ (i < 7 ∧ u = (2 ^ k - 1) + 1 + i)) := by omega
        rw [if_pos huc, if_pos huc, if_neg h2]
      · rw [if_neg huc, if_neg huc]
  · unfold CWISS_SetCtrl
    rw [List.length_set, List.length_set]
    exact hlen

/-- C3 counterexample: the claimed cloned-tail clause, ctrl[j] equal to
ctrl[j - capacity - 1] for every j in [capacity + 1, capacity + 8), fails
on the table produced by the user-visible operation new(1): there
ctrl[3] = kEmpty while ctrl[3 - 1 - 1] = ctrl[1] = kSentinel. -/
theorem C3_ctrl_invariant_counterexample :
    ¬ ctrlInvariantClaimed (CWISS_RawHashSet_new 1).capacity
        (CWISS_RawHashSet_new 1).ctrl := by
  decide

/-- C3 (amended): ResetCtrl establishes, and every in-range SetCtrl write of
an Empty, Deleted or Full byte preserves, the control-byte invariant with
the cloned-tail clause corrected to cover only the first
min(capacity, group_width - 1) bytes, the remaining tail bytes of a small
table being the dummy kEmpty bytes that probe.h documents: for all
i < capacity, ctrl[i] is Empty, Deleted or Full; ctrl[capacity] is the
Sentinel; and ctrl[capacity + 1 + u] = ctrl[u] for u < min(capacity, 7)
and = kEmpty for capacity <= u < 7. -/
theorem C3_ctrl_invariant_amended :
    (∀ capacity, 0 < capacity →
      ctrlInvariant capacity (CWISS_ResetCtrl capacity) ∧
        (CWISS_ResetCtrl capacity).length = capacity + 8) ∧
    (∀ k i h ctrl, k ≤ 64 → 1 ≤ k →
      ctrl.length = (2 ^ k - 1) + 8 →
      ctrlInvariant (2 ^ k - 1) ctrl →
      i < 2 ^ k - 1 → ctrlByteOk h → h ≠ CWISS_kSentinel →
      ctrlInvariant (2 ^ k - 1) (CWISS_SetCtrl i h (2 ^ k - 1) ctrl) ∧
        (CWISS_SetCtrl i h (2 ^ k - 1) ctrl).length = (2 ^ k - 1) + 8) :=
  ⟨ResetCtrl_invariant,
    fun k i h ctrl hk hk0 hlen hinv hi hok hns =>
      SetCtrl_preserves_invariant k i h ctrl hk hk0 hlen hinv hi hok hns⟩

/-- Witness for the amended C3 at capacity 3 = 2^2 - 1: the freshly reset
control array satisfies the invariant, and so does the array after the
SetCtrl write of the Full byte 5 at index 1. -/
theorem C3_ctrl_invariant_amended_witness :
    ctrlInvariant 3 (CWISS_ResetCtrl 3) ∧
      ctrlInvariant (2 ^ 2 - 1) (CWISS_SetCtrl 1 5 (2 ^ 2 - 1) (CWISS_ResetCtrl (2 ^ 2 - 1))) :=
  ⟨(C3_ctrl_invariant_amended.1 3 (by decide)).1,
    (C3_ctrl_invariant_amended.2 2 1 5 (CWISS_ResetCtrl (2 ^ 2 - 1))
      (by decide) (by decide) (by decide)
      (by decide)
      (by decide) (by decide) (by decide)).1⟩

theorem sub64_eq (a b : Nat) (hb : b ≤ a) (ha : a < 2 ^ 64) :
    sub64 a b = a - b := by
  unfold sub64
  have : a + 2 ^ 64 - b = 2 ^ 64 + (a - b) := by omega
  rw [this, Nat.add_mod_left, Nat.mod_eq_of_lt (by omega)]

/-- C2: the claim says the SWAR
CWISS_Group_ConvertSpecialToEmptyAndFullToDeleted maps every byte of the
group, and that CWISS_ConvertDeletedToEmptyAndFullToDeleted therefore turns
every in-range Deleted byte into Empty and every Full byte into Deleted.
The converted 64-bit word is indeed right in every byte, but the store back
is memcpy(dst, &res, sizeof(*dst)) with sizeof(CWISS_ctrl_t) = 1, so only
byte 0 of each group reaches memory: on a capacity-15 array with the Full
byte 5 at index 1 and a Deleted byte at index 2, both survive unchanged. -/
theorem C2_convert_writes_one_byte :
    (byteAt (CWISS_ConvertSpecial_word (CWISS_Group_new
        [128, 5, 254, 128, 128, 128, 128, 128, 128, 128, 128, 128, 128, 128,
          128, 255, 128, 5, 254, 128, 128, 128, 128] 0)) 1 = CWISS_kDeleted ∧
      byteAt (CWISS_ConvertSpecial_word (CWISS_Group_new
        [128, 5, 254, 128, 128, 128, 128, 128, 128, 128, 128, 128, 128, 128,
          128, 255, 128, 5, 254, 128, 128, 128, 128] 0)) 2 = CWISS_kEmpty) ∧
    ((CWISS_ConvertDeletedToEmptyAndFullToDeleted
        [128, 5, 254, 128, 128, 128, 128, 128, 128, 128, 128, 128, 128, 128,
          128, 255, 128, 5, 254, 128, 128, 128, 128] 15).getD 1 0 = 5 ∧
      (CWISS_ConvertDeletedToEmptyAndFullToDeleted
        [128, 5, 254, 128, 128, 128, 128, 128, 128, 128, 128, 128, 128, 128,
          128, 255, 128, 5, 254, 128, 128, 128, 128] 15).getD 2 0 =
        CWISS_kDeleted) := by
  decide

/-- C1: CWISS_RawHashSet_dup iterates over the freshly created copy (the
source passes &self, not that, to CWISS_RawHashSet_iter); the iterator of
that all-empty table lands on the sentinel, becomes null, and the
CWISS_AssertIsFull inside CWISS_RawHashSet_iter_at aborts, so dup never
copies anything and never returns: here evaluated on a one-element source
table and on the empty source table. -/
theorem C1_dup_iterates_new_table :
    CWISS_RawHashSet_dup (fun k => k)
        ⟨[5, 255, 5, 128, 128, 128, 128, 128, 128], [5], 1, 1, 0⟩ = none ∧
      CWISS_RawHashSet_dup (fun k => k) (CWISS_RawHashSet_new 0) = none := by
  decide

/-- C10: for a table with 0 < capacity <= 127, clear() reuses the
allocation: capacity and the slot array are untouched, size becomes 0, the
control array is exactly the ResetCtrl array (every in-range byte Empty,
the Sentinel at index capacity), and growth_left becomes
CapacityToGrowth(capacity); and only when capacity > 127 does clear()
deallocate, resetting capacity to 0. -/
theorem C10_clear_frame (t : CWISS_RawHashSet) (h1 : 0 < t.capacity)
    (h2 : t.capacity ≤ 127) :
    ((CWISS_RawHashSet_clear t).capacity = t.capacity ∧
      (CWISS_RawHashSet_clear t).slots = t.slots ∧
      (CWISS_RawHashSet_clear t).size = 0 ∧
      (CWISS_RawHashSet_clear t).ctrl = CWISS_ResetCtrl t.capacity ∧
      (∀ i, i < t.capacity →
        (CWISS_RawHashSet_clear t).ctrl.getD i 0 = CWISS_kEmpty) ∧
      (CWISS_RawHashSet_clear t).ctrl.getD t.capacity 0 = CWISS_kSentinel ∧
      (CWISS_RawHashSet_clear t).growth_left =
        CWISS_CapacityToGrowth t.capacity) ∧
    (∀ u : CWISS_RawHashSet, 127 < u.capacity →
      (CWISS_RawHashSet_clear u).capacity = 0 ∧
      (CWISS_RawHashSet_clear u).size = 0) := by
  constructor
  · have hbr : ¬ 127 < t.capacity := by omega
    have hnz : t.capacity ≠ 0 := by omega
    unfold CWISS_RawHashSet_clear CWISS_RawHashSet_reset_growth_left
    rw [if_neg hbr, if_pos hnz]
    have hg : CWISS_CapacityToGrowth t.capacity ≤ 127 := by
      unfold CWISS_CapacityToGrowth
      split <;> omega
    simp only
    refine ⟨trivial, trivial, trivial, trivial, ?_, ?_, ?_⟩
    · intro i hi
      unfold CWISS_ResetCtrl
      rw [getD_set_ne _ _ _ _ (by omega), getD_replicate _ _ _ (by omega)]
    · unfold CWISS_ResetCtrl
      rw [getD_set_eq _ _ _ (by rw [List.length_replicate]; omega)]
    · rw [sub64_eq _ _ (by omega) (by omega)]
      omega
  · intro u hu
    unfold CWISS_RawHashSet_clear CWISS_RawHashSet_destroy_slots
    rw [if_pos hu, if_neg (by omega : ¬ u.capacity = 0)]
    exact ⟨rfl, rfl⟩

/-- Witness for C10 on the concrete capacity-1 table holding the key 5. -/
theorem C10_clear_frame_witness :
    (CWISS_RawHashSet_clear
        ⟨[5, 255, 5, 128, 128, 128, 128, 128, 128], [5], 1, 1, 0⟩).size = 0 ∧
      (CWISS_RawHashSet_clear
        ⟨[5, 255, 5, 128, 128, 128, 128, 128, 128], [5], 1, 1, 0⟩).slots = [5] :=
  ⟨(C10_clear_frame ⟨[5, 255, 5, 128, 128, 128, 128, 128, 128], [5], 1, 1, 0⟩
      (by decide) (by decide)).1.2.2.1,
    (C10_clear_frame ⟨[5, 255, 5, 128, 128, 128, 128, 128, 128], [5], 1, 1, 0⟩
      (by decide) (by decide)).1.2.1⟩

/-- C9: erasing the slot at index j inspects the group at j and the group
at (j - group_width) & capacity, takes MatchEmpty of each, and marks the
byte Empty (with growth_left credited by one) exactly when
trailing_zeros(empty_after) + leading_zeros(empty_before) < 8, the group
width; otherwise it marks the byte Deleted and growth_left is unchanged;
in both cases size drops by one.  The source guards the comparison behind
empty_before.mask && empty_after.mask; that guard is equivalent because a
zero mask makes the corresponding count equal to 8. -/
theorem C9_erase_meta_only_spec (t : CWISS_RawHashSet) (j : Nat)
    (hsz : 0 < t.size) (hsz64 : t.size < 2 ^ 64) :
    (CWISS_RawHashSet_erase_meta_only t j).size = t.size - 1 ∧
    (CWISS_BitMask_TrailingZeros
          (CWISS_Group_MatchEmpty (CWISS_Group_new t.ctrl j)) +
        CWISS_BitMask_LeadingZeros (CWISS_Group_MatchEmpty (CWISS_Group_new
          t.ctrl (((j + 2 ^ 64 - 8) % 2 ^ 64) &&& t.capacity))) < 8 →
      (CWISS_RawHashSet_erase_meta_only t j).ctrl =
          CWISS_SetCtrl j CWISS_kEmpty t.capacity t.ctrl ∧
        (CWISS_RawHashSet_erase_meta_only t j).growth_left =
          t.growth_left + 1) ∧
    (¬ (CWISS_BitMask_TrailingZeros
          (CWISS_Group_MatchEmpty (CWISS_Group_new t.ctrl j)) +
        CWISS_BitMask_LeadingZeros (CWISS_Group_MatchEmpty (CWISS_Group_new
          t.ctrl (((j + 2 ^ 64 - 8) % 2 ^ 64) &&& t.capacity))) < 8) →
      (CWISS_RawHashSet_erase_meta_only t j).ctrl =
          CWISS_SetCtrl j CWISS_kDeleted t.capacity t.ctrl ∧
        (CWISS_RawHashSet_erase_meta_only t j).growth_left = t.growth_left) := by
  have htz0 : CWISS_BitMask_TrailingZeros 0 = 8 := by decide
  have hlz0 : CWISS_BitMask_LeadingZeros 0 = 8 := by decide
  have hcond : eraseWasNeverFull t j ↔
      CWISS_BitMask_TrailingZeros
          (CWISS_Group_MatchEmpty (CWISS_Group_new t.ctrl j)) +
        CWISS_BitMask_LeadingZeros (CWISS_Group_MatchEmpty (CWISS_Group_new
          t.ctrl (((j + 2 ^ 64 - 8) % 2 ^ 64) &&& t.capacity))) < 8 := by
    unfold eraseWasNeverFull
    constructor
    · exact fun h => h.2.2
    · intro h
      refine ⟨?_, ?_, h⟩
      · intro h0
        rw [h0, hlz0] at h
        omega
      · intro h0
        rw [h0, htz0] at h
        omega
  unfold CWISS_RawHashSet_erase_meta_only
  by_cases hw : eraseWasNeverFull t j
  · rw [if_pos hw, if_pos hw]
    refine ⟨by rw [sub64_eq _ _ (by omega) (by omega)], ?_, ?_⟩
    · exact fun _ => ⟨rfl, rfl⟩
    · exact fun h => absurd (hcond.mp hw) h
  · rw [if_neg hw, if_neg hw]
    refine ⟨by rw [sub64_eq _ _ (by omega) (by omega)], ?_, ?_⟩
    · exact fun h => absurd (hcond.mpr h) hw
    · exact fun _ => ⟨rfl, by simp⟩

/-- Witness for C9 on the capacity-1 table holding the key 5 at slot 0:
the neighbouring groups contain Empty bytes within one group width, so the
byte is marked Empty, growth_left is credited, and size drops to 0. -/
theorem C9_erase_meta_only_spec_witness :
    (CWISS_RawHashSet_erase_meta_only
        ⟨[5, 255, 5, 128, 128, 128, 128, 128, 128], [5], 1, 1, 0⟩ 0).size = 0 ∧
      (CWISS_RawHashSet_erase_meta_only
        ⟨[5, 255, 5, 128, 128, 128, 128, 128, 128], [5], 1, 1, 0⟩ 0).ctrl =
        CWISS_SetCtrl 0 CWISS_kEmpty 1 [5, 255, 5, 128, 128, 128, 128, 128, 128] := by
  have h := C9_erase_meta_only_spec
    ⟨[5, 255, 5, 128, 128, 128, 128, 128, 128], [5], 1, 1, 0⟩ 0
    (by decide) (by decide)
  exact ⟨h.1, (h.2.1 (by decide)).1⟩

/-- C7: inserting the same key twice is not idempotent on this table.  The
first insert of key 0 hits the grow path and runs
drop_deletes_without_resize, whose ConvertDeletedToEmptyAndFullToDeleted
only rewrites byte 0 of each group (the C2 defect): the tombstones at
indices 9, 10, 11 stay marked Deleted, so the rehash loop treats them as
displaced Full slots and re-inserts their stale slot contents -- among
them the previously erased key 0, which moves into the Empty slot 3.  The
first call then re-inserts 0 at index 9 and returns iterator index 9 with
inserted = true; the second call finds the resurrected copy at index 3 and
returns iterator index 3, different from the first call, with the key now
Full in two slots. -/
theorem C7_double_insert_diverges :
    (CWISS_RawHashSet_insert (fun k => k) dropDeletesExampleTable 0).map
        (fun r => (r.2.1, r.2.2, r.1.size)) = some (9, true, 12) ∧
    (CWISS_RawHashSet_insert (fun k => k) dropDeletesExampleTable 0).map
        (fun r => (r.1.slots.getD 3 0, r.1.slots.getD 9 0,
          r.1.ctrl.getD 3 0, r.1.ctrl.getD 9 0)) = some (0, 0, 0, 0) ∧
    ((CWISS_RawHashSet_insert (fun k => k) dropDeletesExampleTable 0).bind
        (fun r => CWISS_RawHashSet_insert (fun k => k) r.1 0)).map
        (fun r => (r.2.1, r.2.2, r.1.size)) = some (3, false, 12) ∧
    (3 : Nat) ≠ 9 := by
  refine ⟨by decide, by decide, by decide, by decide⟩

/-  ============  trailing-zero and bit-pop toolkit  ============  -/

theorem ctzGo_spec : ∀ fuel n, n ≠ 0 → n < 2 ^ fuel →
    n.testBit (ctzGo fuel n) = true ∧
      ∀ j, j < ctzGo fuel n → n.testBit j = false
  | 0, n, h0, hlt => absurd (by omega : n = 0) h0
  | fuel + 1, n, h0, hlt => by
    unfold ctzGo
    by_cases hodd : n % 2 = 1
    · rw [if_pos hodd]
      refine ⟨?_, fun j hj => by omega⟩
      rw [Nat.testBit_zero]
      simp [hodd]
    · have hne : n / 2 ≠ 0 := by omega
      have hlt2 : n / 2 < 2 ^ fuel := by
        rw [pow_succ] at hlt
        omega
      obtain ⟨h1, h2⟩ := ctzGo_spec fuel (n / 2) hne hlt2
      rw [if_neg hodd]
      constructor
      · rw [Nat.testBit_add_one]
        exact h1
      · intro j hj
        cases j with
        | zero =>
          rw [Nat.testBit_zero]
          exact decide_eq_false hodd
        | succ j' =>
          rw [Nat.testBit_add_one]
          exact h2 j' (by omega)

theorem ctz64_spec (n : Nat) (h0 : n ≠ 0) (hlt : n < 2 ^ 64) :
    n.testBit (ctz64 n) = true ∧ ∀ j, j < ctz64 n → n.testBit j = false :=
  ctzGo_spec 64 n h0 hlt

theorem ctz64_lt (n : Nat) (h0 : n ≠ 0) (hlt : n < 2 ^ 64) : ctz64 n < 64 := by
  by_contra h
  have h1 := (ctz64_spec n h0 hlt).1
  have h2 : n < 2 ^ ctz64 n :=
    lt_of_lt_of_le hlt (Nat.pow_le_pow_right (by norm_num) (by omega))
  rw [Nat.testBit_eq_false_of_lt h2] at h1
  exact Bool.false_ne_true h1

theorem mod_two_pow_eq_zero_of_bits (n z : Nat)
    (h : ∀ j, j < z → n.testBit j = false) : n % 2 ^ z = 0 := by
  apply Nat.eq_of_testBit_eq
  intro j
  rw [Nat.zero_testBit, Nat.testBit_mod_two_pow]
  rcases Nat.lt_or_ge j z with hj | hj
  · simp [h j hj]
  · have hj2 : ¬ j < z := by omega
    simp [hj2]

theorem split_at_lowest_bit (m : Nat) (h0 : m ≠ 0) (hlt : m < 2 ^ 64) :
    m = 2 ^ (ctz64 m + 1) * (m / 2 ^ (ctz64 m + 1)) + 2 ^ ctz64 m := by
  obtain ⟨hbit, hlow⟩ := ctz64_spec m h0 hlt
  set z := ctz64 m with hz
  have hmodz : m % 2 ^ z = 0 := mod_two_pow_eq_zero_of_bits m z hlow
  have hmod : m % 2 ^ (z + 1) = 2 ^ z := by
    have hsplit : m % 2 ^ (z + 1) = m % 2 ^ z + 2 ^ z * (m / 2 ^ z % 2) := by
      rw [pow_succ, Nat.mod_mul]
    rw [Nat.testBit_to_div_mod] at hbit
    simp only [decide_eq_true_eq] at hbit
    rw [hsplit, hmodz, Nat.zero_add, hbit, Nat.mul_one]
  conv_lhs => rw [← Nat.div_add_mod m (2 ^ (z + 1))]
  rw [hmod]

/-  Popping the lowest set bit: m &&& (m - 1) clears exactly bit ctz64 m.  -/

theorem testBit_decomp (n i b : Nat) :
    n.testBit b = if b < i then (n % 2 ^ i).testBit b else (n / 2 ^ i).testBit (b - i) := by
  rcases Nat.lt_or_ge b i with hb | hb
  · rw [if_pos hb, Nat.testBit_mod_two_pow]
    simp [hb]
  · rw [if_neg (by omega)]
    rw [← Nat.shiftRight_eq_div_pow, Nat.testBit_shiftRight]
    congr 1
    omega

theorem pop_bit (m : Nat) (h0 : m ≠ 0) (hlt : m < 2 ^ 64) (b : Nat) :
    (m &&& (m - 1)).testBit b = (m.testBit b && ! decide (b = ctz64 m)) := by
  obtain ⟨z, hzdef⟩ : ∃ z, ctz64 m = z := ⟨_, rfl⟩
  obtain ⟨hbit, hlow⟩ := ctz64_spec m h0 hlt
  have hm := split_at_lowest_bit m h0 hlt
  rw [hzdef] at hbit hlow hm ⊢
  have hzpos : (0:Nat) < 2 ^ z := Nat.pos_pow_of_pos z (by norm_num)
  have hz1 : (2:Nat) ^ z < 2 ^ (z + 1) := by
    rw [pow_succ]
    omega
  set q := m / 2 ^ (z + 1) with hq
  have hmod : m % 2 ^ (z + 1) = 2 ^ z := by
    conv_lhs => rw [hm]
    rw [Nat.mul_add_mod]
    exact Nat.mod_eq_of_lt hz1
  have hm1 : m - 1 = 2 ^ (z + 1) * q + (2 ^ z - 1) := by omega
  have hmod1 : (m - 1) % 2 ^ (z + 1) = 2 ^ z - 1 := by
    rw [hm1, Nat.mul_add_mod]
    exact Nat.mod_eq_of_lt (by omega)
  have hdiv1 : (m - 1) / 2 ^ (z + 1) = q := by
    rw [hm1, Nat.mul_add_div (by positivity), Nat.div_eq_of_lt (by omega), Nat.add_zero]
  rw [Nat.testBit_and]
  rw [testBit_decomp m (z + 1) b, testBit_decomp (m - 1) (z + 1) b, hmod, hmod1, hdiv1]
  rcases Nat.lt_or_ge b (z + 1) with hb | hb
  · rw [if_pos hb, if_pos hb]
    rcases Nat.lt_or_ge b z with hbz | hbz
    · simp [Nat.testBit_two_pow, Nat.testBit_two_pow_sub_one, hlow b hbz,
        show z ≠ b by omega]
    · have hbz2 : b = z := by omega
      subst hbz2
      simp [Nat.testBit_two_pow, Nat.testBit_two_pow_sub_one]
  · rw [if_neg (by omega), if_neg (by omega)]
    have hne : decide (b = z) = false := decide_eq_false (by omega)
    rw [hne, Bool.and_self, Bool.not_false, Bool.and_true]

theorem pop_lt (m : Nat) (h0 : m ≠ 0) : m &&& (m - 1) < m := by
  have h1 : m &&& (m - 1) ≤ m - 1 := Nat.and_le_right
  omega

/-  Lane-list membership: for a mask whose set bits all sit at byte MSB
    positions, the lane list of repeated next() calls holds exactly the
    lanes whose MSB is set.  -/

theorem lanes_iff : ∀ fuel m, m < 2 ^ 64 →
    (∀ b, m.testBit b = true → b % 8 = 7 ∧ b < 64) →
    (m ≠ 0 → 64 ≤ fuel + ctz64 m) →
    ∀ l, (l ∈ CWISS_BitMask_lanes fuel m ↔ m.testBit (8 * l + 7) = true)
  | 0, m, hlt, hstruct, hfuel, l => by
    constructor
    · intro h
      exact absurd h (List.not_mem_nil l)
    · intro h
      by_cases h0 : m = 0
      · rw [h0, Nat.zero_testBit] at h
        exact absurd h Bool.false_ne_true
      · have := ctz64_lt m h0 hlt
        have := hfuel h0
        omega
  | fuel + 1, m, hlt, hstruct, hfuel, l => by
    unfold CWISS_BitMask_lanes
    by_cases h0 : m = 0
    · rw [if_pos h0, h0, Nat.zero_testBit]
      simp
    · rw [if_neg h0]
      obtain ⟨z, hzdef⟩ : ∃ z, ctz64 m = z := ⟨_, rfl⟩
      obtain ⟨hbit, hlow⟩ := ctz64_spec m h0 hlt
      rw [hzdef] at hbit hlow
      obtain ⟨hz7, hz64⟩ := hstruct z hbit
      have hl0 : CWISS_BitMask_LowestBitSet m = z / 8 := by
        unfold CWISS_BitMask_LowestBitSet
        rw [hzdef, Nat.shiftRight_eq_div_pow]
      have hpop := pop_bit m h0 hlt
      rw [hzdef] at hpop
      have hm'lt : m &&& (m - 1) < 2 ^ 64 :=
        lt_of_le_of_lt Nat.and_le_left hlt
      have hstruct' : ∀ b, (m &&& (m - 1)).testBit b = true → b % 8 = 7 ∧ b < 64 := by
        intro b hb
        rw [hpop b] at hb
        exact hstruct b (by
          rcases Bool.and_eq_true_iff.mp hb with ⟨h1, _⟩
          exact h1)
      have hfuel' : m &&& (m - 1) ≠ 0 → 64 ≤ fuel + ctz64 (m &&& (m - 1)) := by
        intro hm'0
        obtain ⟨hbit', hlow'⟩ := ctz64_spec (m &&& (m - 1)) hm'0 hm'lt
        have hz'bit := hbit'
        rw [hpop (ctz64 (m &&& (m - 1)))] at hz'bit
        obtain ⟨hmb, hne⟩ := Bool.and_eq_true_iff.mp hz'bit
        have hne2 : ctz64 (m &&& (m - 1)) ≠ z := by
          intro heq
          rw [heq] at hne
          simp at hne
        have hge : z ≤ ctz64 (m &&& (m - 1)) := by
          by_contra hlt2
          rw [hlow (ctz64 (m &&& (m - 1))) (by omega)] at hmb
          exact Bool.false_ne_true hmb
        have := hfuel h0
        rw [hzdef] at this
        omega
      have hih := lanes_iff fuel (m &&& (m - 1)) hm'lt hstruct' hfuel' l
      rw [List.mem_cons, hl0, hih]
      constructor
      · rintro (heq | hmem)
        · have : 8 * l + 7 = z := by omega
          rw [this]
          exact hbit
        · rw [hpop (8 * l + 7)] at hmem
          exact (Bool.and_eq_true_iff.mp hmem).1
      · intro hmb
        by_cases hlz : l = z / 8
        · exact Or.inl hlz
        · refine Or.inr ?_
          have hne3 : (8 : Nat) * l + 7 ≠ z := by omega
          rw [hpop (8 * l + 7), hmb, Bool.true_and]
          simp [hne3]

/-  ============  control-byte classification helpers  ============  -/

theorem ctrlByteOk_lt (b : Nat) (h : ctrlByteOk b) : b < 256 := by
  unfold ctrlByteOk CWISS_kEmpty CWISS_kDeleted CWISS_kSentinel at h
  omega

theorem IsFull_lt_iff (b : Nat) (hb : b < 256) :
    CWISS_IsFull b = true ↔ b < 128 := by
  unfold CWISS_IsFull ctrlSigned
  by_cases h : b < 128
  · simp only [if_pos h, decide_eq_true_eq]
    constructor
    · intro _
      exact h
    · intro _
      positivity
  · rw [if_neg h]
    simp only [decide_eq_true_eq]
    constructor
    · intro hle
      omega
    · intro hlt
      omega

theorem full_not_ed (b : Nat) (h : CWISS_IsFull b = true) :
    CWISS_IsEmptyOrDeleted b = false := by
  unfold CWISS_IsFull at h
  unfold CWISS_IsEmptyOrDeleted
  simp only [decide_eq_true_eq] at h
  simp only [decide_eq_false_iff_not, not_lt]
  have hs : ctrlSigned CWISS_kSentinel = -1 := by decide
  rw [hs]
  omega

theorem full_ne_sentinel (b : Nat) (h : CWISS_IsFull b = true) :
    b ≠ CWISS_kSentinel := by
  intro hb
  rw [hb] at h
  simp [CWISS_IsFull, ctrlSigned, CWISS_kSentinel] at h

/-  One byte of an abstract little-endian 8-byte word.  -/
theorem byteAt_word8 (b0 b1 b2 b3 b4 b5 b6 b7 l : Nat)
    (h0 : b0 < 256) (h1 : b1 < 256) (h2 : b2 < 256) (h3 : b3 < 256)
    (h4 : b4 < 256) (h5 : b5 < 256) (h6 : b6 < 256) (h7 : b7 < 256)
    (hl : l < 8) :
    byteAt (b0 + 2 ^ 8 * b1 + 2 ^ 16 * b2 + 2 ^ 24 * b3 + 2 ^ 32 * b4 +
        2 ^ 40 * b5 + 2 ^ 48 * b6 + 2 ^ 56 * b7) l =
      if l = 0 then b0 else if l = 1 then b1 else if l = 2 then b2
      else if l = 3 then b3 else if l = 4 then b4 else if l = 5 then b5
      else if l = 6 then b6 else b7 := by
  unfold byteAt
  interval_cases l <;> norm_num <;> omega

/-  Reading one byte of a SWAR group word recovers the control byte.  -/
theorem byteAt_Group_new (ctrl : List Nat) (p l : Nat) (hl : l < 8)
    (hbytes : ∀ i, i < 8 → ctrl.getD (p + i) 0 < 256) :
    byteAt (CWISS_Group_new ctrl p) l = ctrl.getD (p + l) 0 := by
  have h0 := hbytes 0 (by omega)
  have h1 := hbytes 1 (by omega)
  have h2 := hbytes 2 (by omega)
  have h3 := hbytes 3 (by omega)
  have h4 := hbytes 4 (by omega)
  have h5 := hbytes 5 (by omega)
  have h6 := hbytes 6 (by omega)
  have h7 := hbytes 7 (by omega)
  rw [show p + 0 = p by omega] at h0
  unfold CWISS_Group_new
  rw [byteAt_word8 _ _ _ _ _ _ _ _ l h0 h1 h2 h3 h4 h5 h6 h7 hl]
  interval_cases l <;> simp

/-  Bits of anything masked with msbs sit only at byte-MSB positions.  -/
theorem and_msbs_bits (a b : Nat)
    (hb : (a &&& CWISS_msbs).testBit b = true) : b % 8 = 7 ∧ b < 64 := by
  rw [Nat.testBit_and, msbs_testBit] at hb
  rcases Bool.and_eq_true_iff.mp hb with ⟨_, h2⟩
  rcases Bool.and_eq_true_iff.mp h2 with ⟨h3, h4⟩
  exact ⟨of_decide_eq_true h3, of_decide_eq_true h4⟩

theorem and_msbs_lt (a : Nat) : a &&& CWISS_msbs < 2 ^ 64 :=
  lt_of_le_of_lt Nat.and_le_right (by norm_num [CWISS_msbs])

theorem Match_struct (g h2 b : Nat)
    (hb : (CWISS_Group_Match g h2).testBit b = true) : b % 8 = 7 ∧ b < 64 := by
  unfold CWISS_Group_Match at hb
  exact and_msbs_bits _ _ hb

theorem Match_lt (g h2 : Nat) : CWISS_Group_Match g h2 < 2 ^ 64 := by
  unfold CWISS_Group_Match
  exact and_msbs_lt _

theorem MatchEmpty_struct (g b : Nat)
    (hb : (CWISS_Group_MatchEmpty g).testBit b = true) : b % 8 = 7 ∧ b < 64 := by
  unfold CWISS_Group_MatchEmpty at hb
  exact and_msbs_bits _ _ hb

theorem MatchEmpty_lt (g : Nat) : CWISS_Group_MatchEmpty g < 2 ^ 64 := by
  unfold CWISS_Group_MatchEmpty
  exact and_msbs_lt _

/-  Lane-list membership for a Match mask.  -/
theorem lanes_Match_iff (g h2 l : Nat) :
    l ∈ CWISS_BitMask_lanes 64 (CWISS_Group_Match g h2) ↔
      (CWISS_Group_Match g h2).testBit (8 * l + 7) = true :=
  lanes_iff 64 _ (Match_lt g h2) (Match_struct g h2) (fun _ => by omega) l

theorem lanes_Match_lt (g h2 l : Nat)
    (h : l ∈ CWISS_BitMask_lanes 64 (CWISS_Group_Match g h2)) : l < 8 := by
  have hb := (lanes_Match_iff g h2 l).mp h
  have := (Match_struct g h2 _ hb).2
  omega

/-  A listed Match lane holds a byte below 128 (no special byte matches).  -/
theorem lanes_Match_byte (g h2 l : Nat) (hh2 : h2 < 128)
    (h : l ∈ CWISS_BitMask_lanes 64 (CWISS_Group_Match g h2)) :
    byteAt g l < 128 := by
  have hl := lanes_Match_lt g h2 l h
  have hb := (lanes_Match_iff g h2 l).mp h
  by_contra hge
  rw [Group_Match_special g h2 l hh2 hl (by omega)] at hb
  exact Bool.false_ne_true hb

theorem MatchEmpty_ne_zero_iff (g : Nat)
    (hok : ∀ l, l < 8 → ctrlByteOk (byteAt g l)) :
    CWISS_Group_MatchEmpty g ≠ 0 ↔
      ∃ l, l < 8 ∧ byteAt g l = CWISS_kEmpty := by
  constructor
  · intro hne
    obtain ⟨b, hb⟩ := Nat.ne_zero_implies_bit_true hne
    obtain ⟨h7, h64⟩ := MatchEmpty_struct g b hb
    refine ⟨b / 8, by omega, ?_⟩
    have hbeq : b = 8 * (b / 8) + 7 := by omega
    rw [hbeq] at hb
    rw [MatchEmpty_testBit g (b / 8) (by omega)] at hb
    rw [matchEmpty_lane_val _ (hok (b / 8) (by omega))] at hb
    exact of_decide_eq_true hb
  · rintro ⟨l, hl, hbyte⟩
    intro h0
    have hb : (CWISS_Group_MatchEmpty g).testBit (8 * l + 7) = true := by
      rw [MatchEmpty_testBit g l hl, matchEmpty_lane_val _ (hok l hl), hbyte]
      simp
    rw [h0, Nat.zero_testBit] at hb
    exact Bool.false_ne_true hb

/-  ============  probe-window geometry under the invariant  ============  -/

theorem probeAt_facts (kk c p0 : Nat) (hkk : kk ≤ 64) (hkk1 : 1 ≤ kk)
    (hc : c = 2 ^ kk - 1) (hp0 : p0 ≤ c) (S : Nat) :
    (probeAt c p0 S).mask = c ∧
      (probeAt c p0 S).offset = (p0 + 8 * tri S) % 2 ^ kk ∧
      (probeAt c p0 S).offset ≤ c := by
  have hpow : (1 : Nat) ≤ 2 ^ kk := Nat.one_le_two_pow
  have hseq : (⟨c, p0, 0⟩ : CWISS_probe_seq) = CWISS_probe_seq_new p0 (2 ^ kk - 1) := by
    unfold CWISS_probe_seq_new
    rw [← hc]
    have h1 : p0 &&& c = p0 := by
      rw [hc, Nat.and_pow_two_sub_one_eq_mod, Nat.mod_eq_of_lt (by omega)]
    rw [h1]
  obtain ⟨ho, hi, hm⟩ := probeIter_offset p0 kk S
  unfold probeAt
  rw [hseq]
  refine ⟨by rw [hm, hc], by rw [ho], ?_⟩
  rw [ho, hc]
  have := Nat.mod_lt (p0 + 8 * tri S) (show 0 < 2 ^ kk by omega)
  omega

/-  Every byte a probe window reads is classified by the invariant: the
    Sentinel sits at logical position capacity, dummy bytes of a small
    table read Empty, and every other window byte mirrors its logical
    position below capacity.  -/
theorem window_byte_cases (c : Nat) (ctrl : List Nat)
    (hinv : ctrlInvariant c ctrl) (q : Nat) (hq : q ≤ c + 7) :
    (q % (c + 1) = c ∧ ctrl.getD q 0 = CWISS_kSentinel) ∨
      ctrl.getD q 0 = CWISS_kEmpty ∨
      (q % (c + 1) < c ∧ ctrl.getD q 0 = ctrl.getD (q % (c + 1)) 0) := by
  obtain ⟨hbytes, hsent, htail⟩ := hinv
  rcases Nat.lt_trichotomy q c with hqc | hqc | hqc
  · right; right
    rw [Nat.mod_eq_of_lt (by omega)]
    exact ⟨hqc, rfl⟩
  · left
    subst hqc
    rw [Nat.mod_eq_of_lt (by omega)]
    exact ⟨rfl, hsent⟩
  · obtain ⟨u, hu7, huq⟩ : ∃ u, u < 7 ∧ q = c + 1 + u :=
      ⟨q - c - 1, by omega, by omega⟩
    subst huq
    have ht := htail u hu7
    by_cases huc : u < c
    · right; right
      rw [if_pos huc] at ht
      have hmod : (c + 1 + u) % (c + 1) = u := by
        rw [Nat.add_mod_left, Nat.mod_eq_of_lt (by omega)]
      rw [hmod]
      exact ⟨huc, ht⟩
    · right; left
      rw [if_neg huc] at ht
      exact ht

theorem window_bytes_ok (c : Nat) (ctrl : List Nat)
    (hinv : ctrlInvariant c ctrl) (q : Nat) (hq : q ≤ c + 7) :
    ctrlByteOk (ctrl.getD q 0) := by
  rcases window_byte_cases c ctrl hinv q hq with ⟨_, h⟩ | h | ⟨hm, h⟩
  · rw [h]
    right; right; right
    rfl
  · rw [h]
    right; left
    rfl
  · rw [h]
    exact (hinv.1 _ hm).1

/-  A window byte below 128 points at a real Full logical slot that holds
    the same byte.  -/
theorem window_full_slot (c : Nat) (ctrl : List Nat)
    (hinv : ctrlInvariant c ctrl) (q : Nat) (hq : q ≤ c + 7)
    (hfull : ctrl.getD q 0 < 128) :
    q % (c + 1) < c ∧ ctrl.getD (q % (c + 1)) 0 = ctrl.getD q 0 := by
  rcases window_byte_cases c ctrl hinv q hq with ⟨_, h⟩ | h | ⟨hm, h⟩
  · rw [h] at hfull
    norm_num [CWISS_kSentinel] at hfull
  · rw [h] at hfull
    norm_num [CWISS_kEmpty] at hfull
  · exact ⟨hm, h.symm⟩

/-  Group bytes at a window offset are the physical control bytes.  -/
theorem group_byte (c : Nat) (ctrl : List Nat) (hlen : ctrl.length = c + 8)
    (hinv : ctrlInvariant c ctrl) (p : Nat) (hp : p ≤ c) (l : Nat) (hl : l < 8) :
    byteAt (CWISS_Group_new ctrl p) l = ctrl.getD (p + l) 0 := by
  apply byteAt_Group_new ctrl p l hl
  intro i hi
  exact ctrlByteOk_lt _ (window_bytes_ok c ctrl hinv (p + i) (by omega))

/-  ============  scanLanes characterization  ============  -/

theorem scanLanes_eq_none (slots : List Nat) (key : Nat) (seq : CWISS_probe_seq) :
    ∀ list : List Nat,
      (∀ l ∈ list, slots.getD (CWISS_probe_seq_offset seq l) 0 ≠ key) →
      scanLanes slots key seq list = none
  | [], _ => rfl
  | l :: rest, h => by
    unfold scanLanes
    rw [if_neg (h l (List.mem_cons_self l rest))]
    exact scanLanes_eq_none slots key seq rest
      (fun x hx => h x (List.mem_cons_of_mem l hx))

theorem scanLanes_mem (slots : List Nat) (key : Nat) (seq : CWISS_probe_seq) :
    ∀ (list : List Nat) (idx : Nat), scanLanes slots key seq list = some idx →
      ∃ l ∈ list, slots.getD (CWISS_probe_seq_offset seq l) 0 = key ∧
        idx = CWISS_probe_seq_offset seq l
  | [], idx, h => by simp [scanLanes] at h
  | l :: rest, idx, h => by
    unfold scanLanes at h
    by_cases hcnd : slots.getD (CWISS_probe_seq_offset seq l) 0 = key
    · rw [if_pos hcnd] at h
      exact ⟨l, List.mem_cons_self l rest, hcnd, (Option.some_inj.mp h).symm⟩
    · rw [if_neg hcnd] at h
      obtain ⟨x, hx, hk, hi⟩ := scanLanes_mem slots key seq rest idx h
      exact ⟨x, List.mem_cons_of_mem l hx, hk, hi⟩

theorem scanLanes_hits (slots : List Nat) (key : Nat) (seq : CWISS_probe_seq)
    (j : Nat) :
    ∀ list : List Nat,
      (∀ l ∈ list, slots.getD (CWISS_probe_seq_offset seq l) 0 = key →
        CWISS_probe_seq_offset seq l = j) →
      (∃ l ∈ list, slots.getD (CWISS_probe_seq_offset seq l) 0 = key) →
      scanLanes slots key seq list = some j
  | [], _, hex => by simp at hex
  | l :: rest, hall, hex => by
    unfold scanLanes
    by_cases hcnd : slots.getD (CWISS_probe_seq_offset seq l) 0 = key
    · rw [if_pos hcnd, hall l (List.mem_cons_self l rest) hcnd]
    · rw [if_neg hcnd]
      apply scanLanes_hits slots key seq j rest
        (fun x hx => hall x (List.mem_cons_of_mem l hx))
      obtain ⟨x, hx, hk⟩ := hex
      rcases List.mem_cons.mp hx with rfl | hx'
      · exact absurd hk hcnd
      · exact ⟨x, hx', hk⟩

/-  ============  per-window facts  ============  -/

theorem probe_offs_mod (kk c p0 : Nat) (hkk : kk ≤ 64) (hkk1 : 1 ≤ kk)
    (hc : c = 2 ^ kk - 1) (hp0 : p0 ≤ c) (S l : Nat) :
    CWISS_probe_seq_offset (probeAt c p0 S) l =
      ((probeAt c p0 S).offset + l) % (c + 1) := by
  obtain ⟨hmask, _, _⟩ := probeAt_facts kk c p0 hkk hkk1 hc hp0 S
  unfold CWISS_probe_seq_offset
  rw [hmask, hc, Nat.and_pow_two_sub_one_eq_mod]
  have hpow : (1 : Nat) ≤ 2 ^ kk := Nat.one_le_two_pow
  congr 1
  omega

/-  A listed Match lane always denotes a real Full logical slot.  -/
theorem listed_lane_slot (kk c : Nat) (hkk : kk ≤ 64) (hkk1 : 1 ≤ kk)
    (hc : c = 2 ^ kk - 1) (ctrl : List Nat) (hlen : ctrl.length = c + 8)
    (hinv : ctrlInvariant c ctrl) (h2 : Nat) (hh2 : h2 < 128)
    (p0 : Nat) (hp0 : p0 ≤ c) (S l : Nat)
    (hmem : l ∈ CWISS_BitMask_lanes 64
      (CWISS_Group_Match (CWISS_Group_new ctrl (probeAt c p0 S).offset) h2)) :
    CWISS_probe_seq_offset (probeAt c p0 S) l < c ∧
      ctrl.getD (CWISS_probe_seq_offset (probeAt c p0 S) l) 0 < 128 := by
  obtain ⟨hmask, hoff, hple⟩ := probeAt_facts kk c p0 hkk hkk1 hc hp0 S
  have hl8 := lanes_Match_lt _ _ _ hmem
  have hbyte := lanes_Match_byte _ _ _ hh2 hmem
  rw [group_byte c ctrl hlen hinv _ hple l hl8] at hbyte
  obtain ⟨hmlt, hmbyte⟩ :=
    window_full_slot c ctrl hinv ((probeAt c p0 S).offset + l) (by omega) hbyte
  rw [probe_offs_mod kk c p0 hkk hkk1 hc hp0 S l]
  rw [hmbyte]
  exact ⟨hmlt, hbyte⟩
